import Mathlib

set_option linter.unusedVariables false

/-! Shallow embedding of the AnimaBanana frame-synthesis scheduler
    (src/index.tsx, primary variant with pose planning).

    Pure helpers (diffPoses) are translated directly; the stateful
    generation run (generateAnimation) is modelled as explicit state
    passing over a RunState record, with the outcome of each external
    generative call supplied by an Env record.  Ghost fields (trace,
    writes, processed, levels, hist) record the observable events the
    specification talks about; they do not influence control flow. -/

/-- Image payload: a data-URL string as produced by the generative calls. -/
abbrev Image := String

/-- A pose record: a JS Record of string to string, as an association list. -/
abbrev Pose := List (String × String)

/-- JS property lookup on a pose record; undefined is modelled as none. -/
def poseLookup (p : Pose) (k : String) : Option String := p.lookup k

/-- Object.keys of a pose record. -/
def objKeys (p : Pose) : List String := p.map Prod.fst

/-- Insertion-ordered union of two key lists (JS Set construction
    from src/index.tsx line 55). -/
def keysUnion (a b : List String) : List String :=
  (a ++ b).foldl (fun acc k => if k ∈ acc then acc else acc ++ [k]) []

/-- One step of the diffPoses loop body (src/index.tsx lines 57-66). -/
def diffStep (poseA poseB : Pose) (acc : List String × List String)
    (key : String) : List String × List String :=
  if key = "notes" then acc
  else if poseLookup poseA key ≠ poseLookup poseB key then (acc.1 ++ [key], acc.2)
  else (acc.1, acc.2 ++ [key])

/-- diffPoses (src/index.tsx lines 50-68): partition the union of the two
    records' keys, skipping the notes key, into changed and unchanged parts. -/
def diffPoses (poseA poseB : Pose) : List String × List String :=
  (keysUnion (objKeys poseA) (objKeys poseB)).foldl (diffStep poseA poseB) ([], [])

/-- NUM_FRAMES constant (src/index.tsx line 14). -/
def NUM_FRAMES : Nat := 9

/-- Input token price (src/index.tsx line 18: 0.35 per million). -/
def GEMINI_FLASH_INPUT_PRICE_PER_MILLION_TOKENS : ℚ := 35 / 100

/-- Output token price (src/index.tsx line 19: 0.70 per million). -/
def GEMINI_FLASH_OUTPUT_PRICE_PER_MILLION_TOKENS : ℚ := 70 / 100

/-- Flat per-image price (src/index.tsx line 20: 0.018). -/
def IMAGE_GENERATION_PRICE_PER_IMAGE : ℚ := 18 / 1000

/-- An image-edit call issued during a run: the first-frame call, the
    last-frame call, or a bisection call for the range (startIndex, endIndex). -/
inductive Call where
  | firstCall
  | lastCall
  | midCall (startIndex endIndex : Nat)
deriving DecidableEq

/-- One element of the parsed planner response: some pose when the element
    is a non-null JS object, none otherwise. -/
abbrev PlanElem := Option Pose

/-- Environment fixing the outcome of every external generative call of
    one run: planner token usage (undefined is none), parsed planner value
    (none when not an array), and the image returned (or none on failure /
    no-image-part) for the first-frame call, the last-frame call, and the
    bisection call of each range. -/
structure Env where
  planUsage : Option (Nat × Nat)
  planResult : Option (List PlanElem)
  firstResult : Option Image
  lastResult : Option Image
  midResult : Nat → Nat → Option Image

/-- Mutable run state plus ghost instrumentation: frames is allFramesData,
    progress and estimatedCost the React state values; trace lists issued
    image calls in program order, writes lists every slot write, processed
    lists every width>1 range handed to generateSingleFrame, levels counts
    bisection loop iterations, hist records (progress, estimatedCost) after
    the run-start reset and after each subsequent update of either. -/
structure RunState where
  frames : List (Option Image)
  progress : Nat
  estimatedCost : ℚ
  trace : List Call
  writes : List (Nat × Image)
  processed : List (Nat × Nat)
  levels : Nat
  hist : List (Nat × ℚ)

/-- setProgress with an absolute value. -/
def setProgressTo (st : RunState) (p : Nat) : RunState :=
  { st with progress := p, hist := st.hist ++ [(p, st.estimatedCost)] }

/-- setEstimatedCost (prev + c). -/
def addCost (st : RunState) (c : ℚ) : RunState :=
  { st with estimatedCost := st.estimatedCost + c,
            hist := st.hist ++ [(st.progress, st.estimatedCost + c)] }

/-- Ghost: record an issued image-edit call. -/
def issueCall (st : RunState) (c : Call) : RunState :=
  { st with trace := st.trace ++ [c] }

/-- Write a frame slot (allFramesData[i] = img) and record the write. -/
def writeSlot (st : RunState) (i : Nat) (img : Image) : RunState :=
  { st with frames := st.frames.set i (some img), writes := st.writes ++ [(i, img)] }

/-- allFramesData[i]: none when the slot is unfilled or out of bounds. -/
def getSlot (frames : List (Option Image)) (i : Nat) : Option Image :=
  frames.getD i none

/-- Outcome of generateSingleFrame for one range: skipped when the
    boundary check fails (no call issued), failed when the call returns
    no image (result null), ok on success. -/
inductive MidOutcome where
  | skipped
  | failed (midIndex : Nat)
  | ok (midIndex : Nat) (frame : Image)
deriving DecidableEq

/-- generateSingleFrame (src/index.tsx lines 240-314): compute the midpoint,
    skip when a boundary slot or a needed pose entry is missing, otherwise
    issue the image-edit call and classify its result. -/
def generateSingleFrame (env : Env) (allFramesData : List (Option Image))
    (framePrompts : List Pose) (startIndex endIndex : Nat) : MidOutcome :=
  let midIndex := (startIndex + endIndex) / 2
  if (getSlot allFramesData startIndex).isNone || (getSlot allFramesData endIndex).isNone
      || (framePrompts[startIndex]?).isNone || (framePrompts[midIndex]?).isNone then
    .skipped
  else
    match env.midResult startIndex endIndex with
    | some img => .ok midIndex img
    | none => .failed midIndex

/-- Width of a range (end - start, JS subtraction on in-run ranges). -/
def gap (r : Nat × Nat) : Nat := r.2 - r.1

/-- Midpoint Math.floor((start + end) / 2). -/
def rmid (r : Nat × Nat) : Nat := (r.1 + r.2) / 2

/-- Children of one range (src/index.tsx lines 452-456). -/
def splitRange (r : Nat × Nat) : List (Nat × Nat) :=
  [(r.1, rmid r), (rmid r, r.2)]

/-- nextRanges accumulation over the whole work list (lines 451-457). -/
def nextRanges : List (Nat × Nat) → List (Nat × Nat)
  | [] => []
  | r :: rest => splitRange r ++ nextRanges rest

/-- Maximum range width in the work list. -/
def maxGap (rs : List (Nat × Nat)) : Nat := (rs.map gap).foldr max 0

/-- The resolvable ranges of one level (filter on width > 1, line 432). -/
def activeRanges (rs : List (Nat × Nat)) : List (Nat × Nat) :=
  rs.filter fun r => decide (1 < gap r)

/-- The batch of one level: each resolvable range paired with its
    generateSingleFrame outcome, reading the frames as of level start. -/
def levelResults (env : Env) (framePrompts : List Pose)
    (frames : List (Option Image)) (rs : List (Nat × Nat)) :
    List ((Nat × Nat) × MidOutcome) :=
  (activeRanges rs).map fun r => (r, generateSingleFrame env frames framePrompts r.1 r.2)

/-- Image-edit calls issued by one batch (every non-skipped range). -/
def levelCalls (lr : List ((Nat × Nat) × MidOutcome)) : List Call :=
  lr.filterMap fun p =>
    match p.2 with
    | .skipped => none
    | .failed _ => some (Call.midCall p.1.1 p.1.2)
    | .ok _ _ => some (Call.midCall p.1.1 p.1.2)

/-- Successful results of one batch (the non-null results of line 442). -/
def levelWrites (lr : List ((Nat × Nat) × MidOutcome)) : List (Nat × Image) :=
  lr.filterMap fun p =>
    match p.2 with
    | .ok i img => some (i, img)
    | _ => none

/-- Apply the successful results of a batch to the slots (lines 442-446). -/
def writeAll (frames : List (Option Image)) (ws : List (Nat × Image)) :
    List (Option Image) :=
  ws.foldl (fun f w => f.set w.1 (some w.2)) frames

/-- One iteration of the bisection while loop (src/index.tsx lines 430-457):
    dispatch the batch, add the per-image cost when any call succeeded,
    write the successful slots, bump progress by the success count. -/
def runLevel (env : Env) (framePrompts : List Pose) (st : RunState)
    (rs : List (Nat × Nat)) : RunState :=
  let lr := levelResults env framePrompts st.frames rs
  let succ := levelWrites lr
  let st1 := { st with trace := st.trace ++ levelCalls lr,
                       processed := st.processed ++ activeRanges rs }
  let st2 := if 0 < succ.length
    then addCost st1 ((succ.length : ℚ) * IMAGE_GENERATION_PRICE_PER_IMAGE)
    else st1
  let st3 := { st2 with frames := writeAll st2.frames succ,
                        writes := st2.writes ++ succ }
  let st4 := setProgressTo st3 (st3.progress + succ.length)
  { st4 with levels := st4.levels + 1 }

/-- The while loop of src/index.tsx lines 430-458, with a fuel argument;
    bisectLoop_fuel_stable below shows any fuel at least maxGap rs gives
    the loop's true fixpoint, so the fuel never cuts a run short. -/
def bisectLoop (env : Env) (framePrompts : List Pose) :
    Nat → RunState → List (Nat × Nat) → RunState
  | 0, st, _ => st
  | fuel + 1, st, rs =>
    if rs.any fun r => decide (1 < gap r) then
      bisectLoop env framePrompts fuel (runLevel env framePrompts st rs) (nextRanges rs)
    else st

/-- Monetary cost of the planning call's token usage (lines 358-363);
    zero when usageMetadata is absent. -/
def planTokenCost (usage : Option (Nat × Nat)) : ℚ :=
  match usage with
  | none => 0
  | some u =>
      (u.1 : ℚ) / 1000000 * GEMINI_FLASH_INPUT_PRICE_PER_MILLION_TOKENS
      + (u.2 : ℚ) / 1000000 * GEMINI_FLASH_OUTPUT_PRICE_PER_MILLION_TOKENS

/-- Record the planning call's cost into the accumulator (lines 358-363);
    no update when usageMetadata is absent. -/
def planCost (env : Env) (st : RunState) : RunState :=
  match env.planUsage with
  | none => st
  | some u =>
      addCost st ((u.1 : ℚ) / 1000000 * GEMINI_FLASH_INPUT_PRICE_PER_MILLION_TOKENS
        + (u.2 : ℚ) / 1000000 * GEMINI_FLASH_OUTPUT_PRICE_PER_MILLION_TOKENS)

/-- Errors thrown inside the run (the four throw sites of generateAnimation). -/
inductive RunError where
  | invalidPlan
  | noFirstFrame
  | noLastFrame
  | insufficientFrames
deriving DecidableEq

/-- Run-start state after the resets of lines 224-232: progress 0, cost 0,
    n unfilled slots; hist opens with the reset values. -/
def initState (n : Nat) : RunState :=
  { frames := List.replicate n none, progress := 0, estimatedCost := 0,
    trace := [], writes := [], processed := [], levels := 0, hist := [(0, 0)] }

/-- The shape check of line 367: the parsed value is an array of exactly n
    elements each of which is a non-null object. -/
def validPlanCheck (n : Nat) (pr : Option (List PlanElem)) : Bool :=
  match pr with
  | none => false
  | some plan => plan.length == n && plan.all Option.isSome

/-- The run from setProgress(1) onward (src/index.tsx lines 371-465):
    first frame, last frame (copied from the first when cyclic), the
    bisection loop, the final frame-count check. -/
def runWithPlan (n : Nat) (env : Env) (isCyclic : Bool)
    (framePrompts : List Pose) (st0 : RunState) : RunState × Option RunError :=
  let st := setProgressTo st0 1
  let st := issueCall st .firstCall
  match env.firstResult with
  | none => (st, some .noFirstFrame)
  | some firstImg =>
    let st := addCost st IMAGE_GENERATION_PRICE_PER_IMAGE
    let st := writeSlot st 0 firstImg
    let st := setProgressTo st (st.progress + 1)
    let next : RunState × Option RunError :=
      if isCyclic then
        let st := writeSlot st (n - 1) firstImg
        (setProgressTo st (st.progress + 1), none)
      else
        let st := issueCall st .lastCall
        match env.lastResult with
        | none => (st, some .noLastFrame)
        | some lastImg =>
          let st := addCost st IMAGE_GENERATION_PRICE_PER_IMAGE
          let st := writeSlot st (n - 1) lastImg
          (setProgressTo st (st.progress + 1), none)
    match next with
    | (st, some e) => (st, some e)
    | (st, none) =>
      let st := bisectLoop env framePrompts n st [(0, n - 1)]
      if (st.frames.filterMap id).length < 2 then (st, some .insufficientFrames)
      else (setProgressTo st (n + 1), none)

/-- generateAnimation (src/index.tsx lines 218-475) for frame count n:
    reset, planning call cost, plan shape validation, then runWithPlan.
    Returns the state at normal end or at the throw, plus the error. -/
def generateAnimation (n : Nat) (env : Env) (isCyclic : Bool) :
    RunState × Option RunError :=
  let st := planCost env (initState n)
  match env.planResult with
  | none => (st, some .invalidPlan)
  | some plan =>
    if plan.length == n && plan.all Option.isSome then
      runWithPlan n env isCyclic (plan.filterMap id) st
    else (st, some .invalidPlan)

/-- A pose record carrying all eight schema fields. -/
def fullPose : Pose :=
  [("notes", "n"), ("head", "h"), ("torso", "t"), ("left_arm", "la"),
   ("right_arm", "ra"), ("left_leg", "ll"), ("right_leg", "rl"),
   ("facial_expression", "fe")]

/-- A nine-element plan of well-formed pose records. -/
def fullPlan9 : List PlanElem := List.replicate 9 (some fullPose)

/-- Environment where the planning call and every image-edit call succeed. -/
def envAll9 : Env :=
  { planUsage := none, planResult := some fullPlan9,
    firstResult := some "F", lastResult := some "L",
    midResult := fun s e => some ("M" ++ toString s ++ "_" ++ toString e) }

/-- A nine-element plan whose elements are objects missing every required
    schema field. -/
def noFieldPlan9 : List PlanElem := List.replicate 9 (some [("foo", "bar")])

/-- Environment whose planner returns nine objects that all lack the
    required fields; every image call succeeds. -/
def envNoFields9 : Env :=
  { planUsage := none, planResult := some noFieldPlan9,
    firstResult := some "F", lastResult := some "L",
    midResult := fun _ _ => some "M" }

/-- Environment where only the interior call for the range (0, 8) fails. -/
def envMidFail9 : Env :=
  { planUsage := none, planResult := some fullPlan9,
    firstResult := some "F", lastResult := some "L",
    midResult := fun s e => if s = 0 ∧ e = 8 then none else some "M" }

/-- Environment whose planner returns an eight-element array for n = 9. -/
def envShortPlan9 : Env :=
  { planUsage := some (1000000, 2000000),
    planResult := some (List.replicate 8 (some fullPose)),
    firstResult := some "F", lastResult := some "L",
    midResult := fun _ _ => some "M" }

/-- Environment of a fully successful run: a plan made of the given nine
    pose records, a first and last image, and one image per range. -/
def mkSuccessEnv (plans : List Pose) (f l : Image) (m : Nat → Nat → Image) : Env :=
  { planUsage := none, planResult := some (plans.map some),
    firstResult := some f, lastResult := some l,
    midResult := fun s e => some (m s e) }

/-- Run state just after issuing the first-frame call. -/
def preFirst (n : Nat) (env : Env) : RunState :=
  issueCall (setProgressTo (planCost env (initState n)) 1) .firstCall

/-- Run state after the first frame resolved to f. -/
def entryCommon (n : Nat) (env : Env) (f : Image) : RunState :=
  let st := writeSlot (addCost (preFirst n env) IMAGE_GENERATION_PRICE_PER_IMAGE) 0 f
  setProgressTo st (st.progress + 1)

/-- Loop entry state of a cyclic run: slot n-1 copies the first image. -/
def entryCyc (n : Nat) (env : Env) (f : Image) : RunState :=
  let st := writeSlot (entryCommon n env f) (n - 1) f
  setProgressTo st (st.progress + 1)

/-- Loop entry state of a non-cyclic run: slot n-1 holds the last-frame
    call's image. -/
def entryNC (n : Nat) (env : Env) (f l : Image) : RunState :=
  let st := writeSlot (addCost (issueCall (entryCommon n env f) .lastCall)
    IMAGE_GENERATION_PRICE_PER_IMAGE) (n - 1) l
  setProgressTo st (st.progress + 1)

/-- Componentwise order on recorded (progress, estimatedCost) pairs. -/
def StepLE (a b : Nat × ℚ) : Prop := a.1 ≤ b.1 ∧ a.2 ≤ b.2

/-- The hist ghost log is coherent: nonempty with the current progress and
    cost as its last entry, and non-decreasing entry to entry. -/
def HistOK (s : RunState) : Prop :=
  s.hist.getLast? = some (s.progress, s.estimatedCost) ∧ List.Chain' StepLE s.hist

/-- Loop invariant of the bisection phase, for frame count n: the work
    list is an ordered chain of in-bounds ranges whose strict interiors
    are unfilled; recorded writes are in bounds, point at filled slots and
    have pairwise distinct indices; processed ranges have width over 1,
    stay in bounds, have pairwise distinct midpoints, and none of those
    midpoints lies strictly inside a current range; recorded bisection
    calls target width-over-1 in-bounds ranges; progress is 3 plus the
    number of interior writes. -/
structure LoopInv (n : Nat) (st : RunState) (rs : List (Nat × Nat)) : Prop where
  flen : st.frames.length = n
  sorted : rs.Pairwise fun a b => a.2 ≤ b.1
  wf : ∀ r ∈ rs, r.1 ≤ r.2 ∧ r.2 ≤ n - 1
  interior : ∀ r ∈ rs, ∀ i, r.1 < i → i < r.2 → getSlot st.frames i = none
  wIdx : ∀ w ∈ st.writes, w.1 < n
  wSome : ∀ w ∈ st.writes, getSlot st.frames w.1 ≠ none
  wNodup : (st.writes.map Prod.fst).Nodup
  pGap : ∀ p ∈ st.processed, 1 < p.2 - p.1 ∧ p.2 ≤ n - 1
  pInt : ∀ r ∈ rs, ∀ p ∈ st.processed, ¬(r.1 < rmid p ∧ rmid p < r.2)
  pNodup : (st.processed.map rmid).Nodup
  tMid : ∀ s e, Call.midCall s e ∈ st.trace → 1 < e - s ∧ e ≤ n - 1
  prog : st.progress = 3 + st.writes.countP fun w => decide (0 < w.1 ∧ w.1 < n - 1)

/-- The list of ranges forms a consecutive chain from a to b: each range
    starts where the previous one ended. -/
def IsChainFrom : Nat → List (Nat × Nat) → Nat → Prop
  | a, [], b => a = b
  | a, r :: rest, b => r.1 = a ∧ IsChainFrom r.2 rest b

/-- Coverage invariant for the all-success analysis: the work list chains
    from 0 to n-1 and every range endpoint slot is already filled. -/
structure CoverInv (n : Nat) (st : RunState) (rs : List (Nat × Nat)) : Prop where
  chain : IsChainFrom 0 rs (n - 1)
  filled : ∀ r ∈ rs, getSlot st.frames r.1 ≠ none ∧ getSlot st.frames r.2 ≠ none

/-! Membership characterization of the insertion-ordered key union. -/

theorem mem_unionFold (l : List String) :
    ∀ (acc : List String) (k : String),
    (k ∈ l.foldl (fun acc k => if k ∈ acc then acc else acc ++ [k]) acc ↔
      k ∈ acc ∨ k ∈ l) := by
  induction l with
  | nil => intro acc k; simp
  | cons h t ih =>
    intro acc k
    by_cases hh : h ∈ acc
    · rw [List.foldl_cons, if_pos hh, ih]
      by_cases hk : k = h
      · subst hk; simp [hh]
      · simp [List.mem_cons, hk]
    · rw [List.foldl_cons, if_neg hh, ih]
      simp only [List.mem_append, List.mem_singleton, List.mem_cons]
      tauto

theorem mem_keysUnion {a b : List String} {k : String} :
    k ∈ keysUnion a b ↔ k ∈ a ∨ k ∈ b := by
  unfold keysUnion
  rw [mem_unionFold]
  simp

/-! Membership characterization of the diffPoses fold. -/

theorem diffStep_foldl_mem (A B : Pose) (keys : List String) :
    ∀ (acc : List String × List String) (k : String),
    (k ∈ (keys.foldl (diffStep A B) acc).1 ↔
        k ∈ acc.1 ∨ (k ∈ keys ∧ k ≠ "notes" ∧ poseLookup A k ≠ poseLookup B k)) ∧
    (k ∈ (keys.foldl (diffStep A B) acc).2 ↔
        k ∈ acc.2 ∨ (k ∈ keys ∧ k ≠ "notes" ∧ poseLookup A k = poseLookup B k)) := by
  induction keys with
  | nil => intro acc k; simp
  | cons key rest ih =>
    intro acc k
    rw [List.foldl_cons]
    by_cases hn : key = "notes"
    · rw [show diffStep A B acc key = acc from by simp [diffStep, hn]]
      obtain ⟨h1, h2⟩ := ih acc k
      subst hn
      constructor
      · rw [h1]
        by_cases hk : k = "notes"
        · subst hk; simp
        · simp [List.mem_cons, hk]
      · rw [h2]
        by_cases hk : k = "notes"
        · subst hk; simp
        · simp [List.mem_cons, hk]
    · by_cases hd : poseLookup A key = poseLookup B key
      · rw [show diffStep A B acc key = (acc.1, acc.2 ++ [key]) from by
          simp [diffStep, hn, hd]]
        obtain ⟨h1, h2⟩ := ih (acc.1, acc.2 ++ [key]) k
        constructor
        · rw [h1]
          by_cases hk : k = key
          · subst hk; simp [hn, hd, List.mem_cons]
          · simp [List.mem_cons, hk]
        · rw [h2]
          simp only [List.mem_append, List.mem_singleton, List.mem_cons]
          by_cases hk : k = key
          · subst hk; simp [hn, hd]
          · simp [hk]
      · rw [show diffStep A B acc key = (acc.1 ++ [key], acc.2) from by
          simp [diffStep, hn, hd]]
        obtain ⟨h1, h2⟩ := ih (acc.1 ++ [key], acc.2) k
        constructor
        · rw [h1]
          simp only [List.mem_append, List.mem_singleton, List.mem_cons]
          by_cases hk : k = key
          · subst hk; simp [hn, hd]
          · simp [hk]
        · rw [h2]
          by_cases hk : k = key
          · subst hk; simp [hn, hd, List.mem_cons]
          · simp [List.mem_cons, hk]

/-- C10: diffPoses partitions the union of the two records' keys minus
    the notes key: a non-notes key of either record lands in changedParts
    exactly when the two values (undefined included) differ, lands in
    unchangedParts exactly when they agree, never in both; keys outside
    the union appear in neither list, and notes appears in neither list. -/
theorem claim_C10_diffPoses_partition (A B : Pose) (k : String) :
    ("notes" ∉ (diffPoses A B).1 ∧ "notes" ∉ (diffPoses A B).2) ∧
    (k ∈ (diffPoses A B).1 ∨ k ∈ (diffPoses A B).2 →
      (k ∈ objKeys A ∨ k ∈ objKeys B) ∧ k ≠ "notes") ∧
    ((k ∈ objKeys A ∨ k ∈ objKeys B) → k ≠ "notes" →
      ((k ∈ (diffPoses A B).1 ↔ poseLookup A k ≠ poseLookup B k) ∧
       (k ∈ (diffPoses A B).2 ↔ poseLookup A k = poseLookup B k) ∧
       ¬(k ∈ (diffPoses A B).1 ∧ k ∈ (diffPoses A B).2))) := by
  have hk := diffStep_foldl_mem A B (keysUnion (objKeys A) (objKeys B)) ([], []) k
  have hnotes := diffStep_foldl_mem A B (keysUnion (objKeys A) (objKeys B)) ([], []) "notes"
  rcases hk with ⟨hk1, hk2⟩
  rcases hnotes with ⟨hn1, hn2⟩
  unfold diffPoses
  refine ⟨⟨?_, ?_⟩, ?_, ?_⟩
  · rw [hn1]; simp
  · rw [hn2]; simp
  · intro hmem
    rcases hmem with hm | hm
    · rw [hk1] at hm
      simp only [List.not_mem_nil, false_or] at hm
      exact ⟨mem_keysUnion.mp hm.1, hm.2.1⟩
    · rw [hk2] at hm
      simp only [List.not_mem_nil, false_or] at hm
      exact ⟨mem_keysUnion.mp hm.1, hm.2.1⟩
  · intro hu hne
    have hu' : k ∈ keysUnion (objKeys A) (objKeys B) := mem_keysUnion.mpr hu
    refine ⟨?_, ?_, ?_⟩
    · rw [hk1]; simp [hu', hne]
    · rw [hk2]; simp [hu', hne]
    · rw [hk1, hk2]
      simp [hu', hne]

/-- Witness for C10 at a concrete pair of records and key. -/
theorem claim_C10_diffPoses_partition_witness :
    ("head" ∈ (diffPoses fullPose [("head", "h2")]).1 ↔
      poseLookup fullPose "head" ≠ poseLookup [("head", "h2")] "head") ∧
    "notes" ∉ (diffPoses fullPose [("head", "h2")]).1 := by
  refine ⟨((claim_C10_diffPoses_partition fullPose [("head", "h2")] "head").2.2
    (by decide) (by decide)).1, ?_⟩
  exact (claim_C10_diffPoses_partition fullPose [("head", "h2")] "head").1.1

/-! Basic slot and write lemmas. -/

theorem getSlot_set (frames : List (Option Image)) :
    ∀ (j i : Nat) (v : Option Image),
    getSlot (frames.set j v) i =
      if j = i ∧ j < frames.length then v else getSlot frames i := by
  induction frames with
  | nil => intro j i v; simp [getSlot]
  | cons f fs ih =>
    intro j i v
    cases j with
    | zero =>
      cases i with
      | zero => simp [getSlot]
      | succ i => simp [getSlot]
    | succ j =>
      cases i with
      | zero => simp [getSlot]
      | succ i =>
        simp only [List.set_cons_succ, getSlot, List.getD_cons_succ, List.length_cons]
        rw [show ((fs.set j v).getD i none) = getSlot (fs.set j v) i from rfl, ih]
        by_cases h1 : j = i ∧ j < fs.length
        · rw [if_pos h1, if_pos (by omega)]
        · rw [if_neg h1, if_neg (by omega)]
          rfl

theorem writeAll_length : ∀ (ws : List (Nat × Image)) (frames : List (Option Image)),
    (writeAll frames ws).length = frames.length := by
  intro ws
  induction ws with
  | nil => intro frames; rfl
  | cons w ws ih =>
    intro frames
    rw [show writeAll frames (w :: ws) = writeAll (frames.set w.1 (some w.2)) ws from rfl,
      ih, List.length_set]

theorem getSlot_writeAll_notMem :
    ∀ (ws : List (Nat × Image)) (frames : List (Option Image)) (i : Nat),
    i ∉ ws.map Prod.fst → getSlot (writeAll frames ws) i = getSlot frames i := by
  intro ws
  induction ws with
  | nil => intro frames i h; rfl
  | cons w ws ih =>
    intro frames i h
    simp only [List.map_cons, List.mem_cons] at h
    push_neg at h
    rw [show writeAll frames (w :: ws) = writeAll (frames.set w.1 (some w.2)) ws from rfl,
      ih _ _ h.2, getSlot_set]
    rw [if_neg (by intro hc; exact h.1 hc.1.symm)]

theorem getSlot_writeAll_isSome :
    ∀ (ws : List (Nat × Image)) (frames : List (Option Image)) (i : Nat),
    (getSlot frames i).isSome → (getSlot (writeAll frames ws) i).isSome := by
  intro ws
  induction ws with
  | nil => intro frames i h; exact h
  | cons w ws ih =>
    intro frames i h
    rw [show writeAll frames (w :: ws) = writeAll (frames.set w.1 (some w.2)) ws from rfl]
    apply ih
    rw [getSlot_set]
    by_cases hc : w.1 = i ∧ w.1 < frames.length
    · rw [if_pos hc]; rfl
    · rw [if_neg hc]; exact h

/-! maxGap and range-splitting lemmas. -/

theorem maxGap_cons (r : Nat × Nat) (rs : List (Nat × Nat)) :
    maxGap (r :: rs) = max (gap r) (maxGap rs) := rfl

theorem le_maxGap {rs : List (Nat × Nat)} {r : Nat × Nat} (h : r ∈ rs) :
    gap r ≤ maxGap rs := by
  induction rs with
  | nil => simp at h
  | cons x xs ih =>
    rw [maxGap_cons]
    rcases List.mem_cons.mp h with h | h
    · subst h; exact Nat.le_max_left _ _
    · exact le_trans (ih h) (Nat.le_max_right _ _)

theorem maxGap_le {rs : List (Nat × Nat)} {b : Nat} (h : ∀ r ∈ rs, gap r ≤ b) :
    maxGap rs ≤ b := by
  induction rs with
  | nil => exact Nat.zero_le b
  | cons x xs ih =>
    rw [maxGap_cons]
    exact max_le (h x (by simp)) (ih fun r hr => h r (by simp [hr]))

theorem exists_gap_eq_maxGap {rs : List (Nat × Nat)} (h : 0 < maxGap rs) :
    ∃ r ∈ rs, gap r = maxGap rs := by
  induction rs with
  | nil => simp [maxGap] at h
  | cons x xs ih =>
    rw [maxGap_cons] at h ⊢
    by_cases hx : maxGap xs ≤ gap x
    · exact ⟨x, by simp, by omega⟩
    · have h2 : 0 < maxGap xs := by omega
      obtain ⟨r, hr, he⟩ := ih h2
      exact ⟨r, by simp [hr], by omega⟩

theorem loopCond_iff (rs : List (Nat × Nat)) :
    (rs.any fun r => decide (1 < gap r)) = true ↔ 2 ≤ maxGap rs := by
  induction rs with
  | nil => simp [maxGap]
  | cons x xs ih =>
    rw [List.any_cons, maxGap_cons]
    simp only [Bool.or_eq_true, decide_eq_true_eq, ih]
    omega

theorem mem_splitRange {r c : Nat × Nat} :
    c ∈ splitRange r ↔ c = (r.1, rmid r) ∨ c = (rmid r, r.2) := by
  simp [splitRange]

theorem mem_nextRanges {rs : List (Nat × Nat)} {c : Nat × Nat} :
    c ∈ nextRanges rs ↔ ∃ r ∈ rs, c ∈ splitRange r := by
  induction rs with
  | nil => simp [nextRanges]
  | cons x xs ih =>
    rw [show nextRanges (x :: xs) = splitRange x ++ nextRanges xs from rfl]
    simp [List.mem_append, ih]

theorem gap_split_le {r c : Nat × Nat} (hc : c ∈ splitRange r) :
    gap c ≤ max 1 ((gap r + 1) / 2) := by
  rcases mem_splitRange.mp hc with h | h <;> subst h <;>
    simp only [gap, rmid] <;> omega

theorem maxGap_nextRanges_le (rs : List (Nat × Nat)) :
    maxGap (nextRanges rs) ≤ max 1 ((maxGap rs + 1) / 2) := by
  apply maxGap_le
  intro c hc
  obtain ⟨r, hr, hcr⟩ := mem_nextRanges.mp hc
  have h1 := gap_split_le hcr
  have h2 : gap r ≤ maxGap rs := le_maxGap hr
  omega

theorem maxGap_nextRanges_eq {rs : List (Nat × Nat)} (h : 2 ≤ maxGap rs) :
    maxGap (nextRanges rs) = (maxGap rs + 1) / 2 := by
  have hle := maxGap_nextRanges_le rs
  have hub : maxGap (nextRanges rs) ≤ (maxGap rs + 1) / 2 := by
    rw [Nat.max_eq_right (by omega : 1 ≤ (maxGap rs + 1) / 2)] at hle
    exact hle
  have hpos : 0 < maxGap rs := by omega
  obtain ⟨r, hr, he⟩ := exists_gap_eq_maxGap hpos
  have hchild : (rmid r, r.2) ∈ nextRanges rs :=
    mem_nextRanges.mpr ⟨r, hr, by simp [splitRange]⟩
  have hgc : gap (rmid r, r.2) = (maxGap rs + 1) / 2 := by
    simp only [gap, rmid]
    simp only [gap] at he
    omega
  have hlow := le_maxGap hchild
  rw [hgc] at hlow
  exact le_antisymm hub hlow

/-- C8 helper: with width at least 2 somewhere, the maximum width strictly
    shrinks at each level. -/
theorem maxGap_nextRanges_lt {rs : List (Nat × Nat)} (h : 2 ≤ maxGap rs) :
    maxGap (nextRanges rs) < maxGap rs := by
  rw [maxGap_nextRanges_eq h]
  omega

/-! Projection lemmas for the state helpers. -/

@[simp] theorem addCost_frames (s : RunState) (x : ℚ) : (addCost s x).frames = s.frames := rfl
@[simp] theorem addCost_progress (s : RunState) (x : ℚ) : (addCost s x).progress = s.progress := rfl
@[simp] theorem addCost_trace (s : RunState) (x : ℚ) : (addCost s x).trace = s.trace := rfl
@[simp] theorem addCost_writes (s : RunState) (x : ℚ) : (addCost s x).writes = s.writes := rfl
@[simp] theorem addCost_processed (s : RunState) (x : ℚ) : (addCost s x).processed = s.processed := rfl
@[simp] theorem addCost_levels (s : RunState) (x : ℚ) : (addCost s x).levels = s.levels := rfl
@[simp] theorem addCost_cost (s : RunState) (x : ℚ) : (addCost s x).estimatedCost = s.estimatedCost + x := rfl
@[simp] theorem addCost_hist (s : RunState) (x : ℚ) : (addCost s x).hist = s.hist ++ [(s.progress, s.estimatedCost + x)] := rfl

@[simp] theorem setProgressTo_frames (s : RunState) (p : Nat) : (setProgressTo s p).frames = s.frames := rfl
@[simp] theorem setProgressTo_cost (s : RunState) (p : Nat) : (setProgressTo s p).estimatedCost = s.estimatedCost := rfl
@[simp] theorem setProgressTo_trace (s : RunState) (p : Nat) : (setProgressTo s p).trace = s.trace := rfl
@[simp] theorem setProgressTo_writes (s : RunState) (p : Nat) : (setProgressTo s p).writes = s.writes := rfl
@[simp] theorem setProgressTo_processed (s : RunState) (p : Nat) : (setProgressTo s p).processed = s.processed := rfl
@[simp] theorem setProgressTo_levels (s : RunState) (p : Nat) : (setProgressTo s p).levels = s.levels := rfl
@[simp] theorem setProgressTo_progress (s : RunState) (p : Nat) : (setProgressTo s p).progress = p := rfl
@[simp] theorem setProgressTo_hist (s : RunState) (p : Nat) : (setProgressTo s p).hist = s.hist ++ [(p, s.estimatedCost)] := rfl

@[simp] theorem issueCall_frames (s : RunState) (c : Call) : (issueCall s c).frames = s.frames := rfl
@[simp] theorem issueCall_progress (s : RunState) (c : Call) : (issueCall s c).progress = s.progress := rfl
@[simp] theorem issueCall_cost (s : RunState) (c : Call) : (issueCall s c).estimatedCost = s.estimatedCost := rfl
@[simp] theorem issueCall_writes (s : RunState) (c : Call) : (issueCall s c).writes = s.writes := rfl
@[simp] theorem issueCall_processed (s : RunState) (c : Call) : (issueCall s c).processed = s.processed := rfl
@[simp] theorem issueCall_levels (s : RunState) (c : Call) : (issueCall s c).levels = s.levels := rfl
@[simp] theorem issueCall_hist (s : RunState) (c : Call) : (issueCall s c).hist = s.hist := rfl
@[simp] theorem issueCall_trace (s : RunState) (c : Call) : (issueCall s c).trace = s.trace ++ [c] := rfl

@[simp] theorem writeSlot_progress (s : RunState) (i : Nat) (img : Image) : (writeSlot s i img).progress = s.progress := rfl
@[simp] theorem writeSlot_cost (s : RunState) (i : Nat) (img : Image) : (writeSlot s i img).estimatedCost = s.estimatedCost := rfl
@[simp] theorem writeSlot_trace (s : RunState) (i : Nat) (img : Image) : (writeSlot s i img).trace = s.trace := rfl
@[simp] theorem writeSlot_processed (s : RunState) (i : Nat) (img : Image) : (writeSlot s i img).processed = s.processed := rfl
@[simp] theorem writeSlot_levels (s : RunState) (i : Nat) (img : Image) : (writeSlot s i img).levels = s.levels := rfl
@[simp] theorem writeSlot_hist (s : RunState) (i : Nat) (img : Image) : (writeSlot s i img).hist = s.hist := rfl
@[simp] theorem writeSlot_frames (s : RunState) (i : Nat) (img : Image) : (writeSlot s i img).frames = s.frames.set i (some img) := rfl
@[simp] theorem writeSlot_writes (s : RunState) (i : Nat) (img : Image) : (writeSlot s i img).writes = s.writes ++ [(i, img)] := rfl

/-! Per-field behavior of one bisection level. -/

theorem runLevel_frames (env : Env) (fp : List Pose) (st : RunState)
    (rs : List (Nat × Nat)) :
    (runLevel env fp st rs).frames =
      writeAll st.frames (levelWrites (levelResults env fp st.frames rs)) := by
  simp [runLevel, apply_ite RunState.frames]

theorem runLevel_trace (env : Env) (fp : List Pose) (st : RunState)
    (rs : List (Nat × Nat)) :
    (runLevel env fp st rs).trace =
      st.trace ++ levelCalls (levelResults env fp st.frames rs) := by
  simp [runLevel, apply_ite RunState.trace]

theorem runLevel_processed (env : Env) (fp : List Pose) (st : RunState)
    (rs : List (Nat × Nat)) :
    (runLevel env fp st rs).processed = st.processed ++ activeRanges rs := by
  simp [runLevel, apply_ite RunState.processed]

theorem runLevel_writes (env : Env) (fp : List Pose) (st : RunState)
    (rs : List (Nat × Nat)) :
    (runLevel env fp st rs).writes =
      st.writes ++ levelWrites (levelResults env fp st.frames rs) := by
  simp [runLevel, apply_ite RunState.writes]

theorem runLevel_progress (env : Env) (fp : List Pose) (st : RunState)
    (rs : List (Nat × Nat)) :
    (runLevel env fp st rs).progress =
      st.progress + (levelWrites (levelResults env fp st.frames rs)).length := by
  simp [runLevel, apply_ite RunState.progress]

theorem runLevel_levels (env : Env) (fp : List Pose) (st : RunState)
    (rs : List (Nat × Nat)) :
    (runLevel env fp st rs).levels = st.levels + 1 := by
  simp [runLevel, apply_ite RunState.levels]

/-! Unfolding and global behavior of the bisection loop. -/

theorem bisectLoop_zero (env : Env) (fp : List Pose) (st : RunState)
    (rs : List (Nat × Nat)) : bisectLoop env fp 0 st rs = st := rfl

theorem bisectLoop_succ (env : Env) (fp : List Pose) (fuel : Nat) (st : RunState)
    (rs : List (Nat × Nat)) :
    bisectLoop env fp (fuel + 1) st rs =
      if rs.any (fun r => decide (1 < gap r)) then
        bisectLoop env fp fuel (runLevel env fp st rs) (nextRanges rs)
      else st := rfl

/-- The fuel is irrelevant from maxGap rs upward: the loop embeds the
    source's while loop, which runs the level step exactly until no range
    has width over 1. -/
theorem bisectLoop_fuel_stable (env : Env) (fp : List Pose) :
    ∀ (fuel k : Nat) (st : RunState) (rs : List (Nat × Nat)), maxGap rs ≤ fuel →
    bisectLoop env fp (fuel + k) st rs = bisectLoop env fp fuel st rs := by
  intro fuel
  induction fuel with
  | zero =>
    intro k st rs hg
    cases k with
    | zero => rfl
    | succ k =>
      rw [bisectLoop_zero, show 0 + (k + 1) = k + 1 from by omega, bisectLoop_succ]
      rw [if_neg ?hc]
      case hc =>
        rw [loopCond_iff]
        omega
  | succ f ih =>
    intro k st rs hg
    by_cases hc : (rs.any fun r => decide (1 < gap r)) = true
    · have h2 : 2 ≤ maxGap rs := (loopCond_iff rs).mp hc
      have hnext : maxGap (nextRanges rs) ≤ f := by
        have := maxGap_nextRanges_eq h2
        omega
      rw [show f + 1 + k = (f + k) + 1 from by omega, bisectLoop_succ, if_pos hc,
        bisectLoop_succ, if_pos hc]
      exact ih k _ _ hnext
    · rw [show f + 1 + k = (f + k) + 1 from by omega, bisectLoop_succ, if_neg hc,
        bisectLoop_succ, if_neg hc]

/-- The loop performs exactly ceil(log2 (maxGap rs)) levels. -/
theorem bisectLoop_levels (env : Env) (fp : List Pose) :
    ∀ (fuel : Nat) (st : RunState) (rs : List (Nat × Nat)), maxGap rs ≤ fuel →
    (bisectLoop env fp fuel st rs).levels =
      st.levels + Nat.clog 2 (max 1 (maxGap rs)) := by
  intro fuel
  induction fuel with
  | zero =>
    intro st rs hg
    rw [bisectLoop_zero, show maxGap rs = 0 from by omega]
    simp
  | succ f ih =>
    intro st rs hg
    by_cases hc : (rs.any fun r => decide (1 < gap r)) = true
    · have h2 : 2 ≤ maxGap rs := (loopCond_iff rs).mp hc
      have hnext : maxGap (nextRanges rs) ≤ f := by
        have := maxGap_nextRanges_eq h2
        omega
      rw [bisectLoop_succ, if_pos hc, ih _ _ hnext, runLevel_levels,
        maxGap_nextRanges_eq h2,
        Nat.max_eq_right (by omega : 1 ≤ (maxGap rs + 1) / 2),
        Nat.max_eq_right (by omega : 1 ≤ maxGap rs),
        Nat.clog_of_two_le (by omega) h2,
        show maxGap rs + 2 - 1 = maxGap rs + 1 from by omega]
      omega
    · rw [bisectLoop_succ, if_neg hc]
      have h1 : maxGap rs ≤ 1 := by
        by_contra hh
        exact hc ((loopCond_iff rs).mpr (by omega))
      rw [show max 1 (maxGap rs) = 1 from by omega, Nat.clog_one_right]
      omega

/-- Every call emitted by a batch is a bisection call for one of its ranges. -/
theorem mem_levelCalls {lr : List ((Nat × Nat) × MidOutcome)} {c : Call}
    (h : c ∈ levelCalls lr) :
    ∃ p ∈ lr, c = Call.midCall p.1.1 p.1.2 ∧ p.2 ≠ .skipped := by
  obtain ⟨p, hp, he⟩ := List.mem_filterMap.mp h
  refine ⟨p, hp, ?_⟩
  cases hm : p.2 with
  | skipped => rw [hm] at he; simp at he
  | failed i => rw [hm] at he; simp at he; exact ⟨he.symm, by simp [hm]⟩
  | ok i img => rw [hm] at he; simp at he; exact ⟨he.symm, by simp [hm]⟩

/-- The loop only appends bisection calls to the trace. -/
theorem bisectLoop_trace_shape (env : Env) (fp : List Pose) :
    ∀ (fuel : Nat) (st : RunState) (rs : List (Nat × Nat)),
    ∃ tl, (bisectLoop env fp fuel st rs).trace = st.trace ++ tl ∧
      ∀ c ∈ tl, ∃ s e, c = Call.midCall s e := by
  intro fuel
  induction fuel with
  | zero => intro st rs; exact ⟨[], by simp [bisectLoop_zero], by simp⟩
  | succ f ih =>
    intro st rs
    by_cases hc : (rs.any fun r => decide (1 < gap r)) = true
    · obtain ⟨tl, h1, h2⟩ := ih (runLevel env fp st rs) (nextRanges rs)
      rw [bisectLoop_succ, if_pos hc]
      refine ⟨levelCalls (levelResults env fp st.frames rs) ++ tl, ?_, ?_⟩
      · rw [h1, runLevel_trace, List.append_assoc]
      · intro c hcm
        rcases List.mem_append.mp hcm with hm | hm
        · obtain ⟨p, _, he, _⟩ := mem_levelCalls hm
          exact ⟨p.1.1, p.1.2, he⟩
        · exact h2 c hm
    · rw [bisectLoop_succ, if_neg hc]
      exact ⟨[], by simp, by simp⟩

/-- A filled slot stays filled through the loop. -/
theorem bisectLoop_frames_isSome (env : Env) (fp : List Pose) :
    ∀ (fuel : Nat) (st : RunState) (rs : List (Nat × Nat)) (i : Nat),
    (getSlot st.frames i).isSome →
    (getSlot (bisectLoop env fp fuel st rs).frames i).isSome := by
  intro fuel
  induction fuel with
  | zero => intro st rs i h; rw [bisectLoop_zero]; exact h
  | succ f ih =>
    intro st rs i h
    by_cases hc : (rs.any fun r => decide (1 < gap r)) = true
    · rw [bisectLoop_succ, if_pos hc]
      apply ih
      rw [runLevel_frames]
      exact getSlot_writeAll_isSome _ _ _ h
    · rw [bisectLoop_succ, if_neg hc]
      exact h

/-! Coherence of the hist ghost log. -/

theorem histOK_concat {s t : RunState} (h : HistOK s)
    (hh : t.hist = s.hist ++ [(t.progress, t.estimatedCost)])
    (hp : s.progress ≤ t.progress) (hc : s.estimatedCost ≤ t.estimatedCost) :
    HistOK t := by
  obtain ⟨h1, h2⟩ := h
  constructor
  · rw [hh]
    simp
  · rw [hh]
    apply List.Chain'.append h2 (List.chain'_singleton _)
    intro x hx y hy
    simp only [List.head?_cons, Option.mem_def, Option.some.injEq] at hy
    rw [h1] at hx
    simp only [Option.mem_def, Option.some.injEq] at hx
    subst hx
    subst hy
    exact ⟨hp, hc⟩

theorem histOK_addCost {s : RunState} {x : ℚ} (hx : 0 ≤ x) (h : HistOK s) :
    HistOK (addCost s x) :=
  histOK_concat h (by simp) le_rfl (le_add_of_nonneg_right hx)

theorem histOK_setProgressTo {s : RunState} {p : Nat} (hp : s.progress ≤ p)
    (h : HistOK s) : HistOK (setProgressTo s p) :=
  histOK_concat h (by simp) hp le_rfl

theorem histOK_issueCall {s : RunState} (c : Call) (h : HistOK s) :
    HistOK (issueCall s c) := h

theorem histOK_writeSlot {s : RunState} (i : Nat) (img : Image) (h : HistOK s) :
    HistOK (writeSlot s i img) := h

theorem histOK_initState (n : Nat) : HistOK (initState n) := by
  constructor
  · rfl
  · exact List.chain'_singleton _

/-! planCost projections and hist coherence. -/

@[simp] theorem planCost_frames (env : Env) (s : RunState) : (planCost env s).frames = s.frames := by
  unfold planCost; cases env.planUsage <;> rfl
@[simp] theorem planCost_progress (env : Env) (s : RunState) : (planCost env s).progress = s.progress := by
  unfold planCost; cases env.planUsage <;> rfl
@[simp] theorem planCost_trace (env : Env) (s : RunState) : (planCost env s).trace = s.trace := by
  unfold planCost; cases env.planUsage <;> rfl
@[simp] theorem planCost_writes (env : Env) (s : RunState) : (planCost env s).writes = s.writes := by
  unfold planCost; cases env.planUsage <;> rfl
@[simp] theorem planCost_processed (env : Env) (s : RunState) : (planCost env s).processed = s.processed := by
  unfold planCost; cases env.planUsage <;> rfl
@[simp] theorem planCost_levels (env : Env) (s : RunState) : (planCost env s).levels = s.levels := by
  unfold planCost; cases env.planUsage <;> rfl

theorem planTokenCost_nonneg (u : Option (Nat × Nat)) : 0 ≤ planTokenCost u := by
  unfold planTokenCost
  cases u with
  | none => exact le_rfl
  | some u =>
    simp only [GEMINI_FLASH_INPUT_PRICE_PER_MILLION_TOKENS,
      GEMINI_FLASH_OUTPUT_PRICE_PER_MILLION_TOKENS]
    positivity

theorem planCost_cost (env : Env) (s : RunState) :
    (planCost env s).estimatedCost = s.estimatedCost + planTokenCost env.planUsage := by
  unfold planCost planTokenCost
  cases env.planUsage with
  | none => simp
  | some u => simp

theorem histOK_planCost (env : Env) {s : RunState} (h : HistOK s) :
    HistOK (planCost env s) := by
  unfold planCost
  cases env.planUsage with
  | none => exact h
  | some u =>
    apply histOK_addCost ?_ h
    simp only [GEMINI_FLASH_INPUT_PRICE_PER_MILLION_TOKENS,
      GEMINI_FLASH_OUTPUT_PRICE_PER_MILLION_TOKENS]
    positivity

/-! Batch membership lemmas. -/

theorem mem_activeRanges {rs : List (Nat × Nat)} {r : Nat × Nat} :
    r ∈ activeRanges rs ↔ r ∈ rs ∧ 1 < gap r := by
  unfold activeRanges
  rw [List.mem_filter]
  simp

theorem mem_levelResults {env : Env} {fp : List Pose} {fr : List (Option Image)}
    {rs : List (Nat × Nat)} {p : (Nat × Nat) × MidOutcome} :
    p ∈ levelResults env fp fr rs ↔
      p.1 ∈ activeRanges rs ∧ p.2 = generateSingleFrame env fr fp p.1.1 p.1.2 := by
  unfold levelResults
  rw [List.mem_map]
  constructor
  · rintro ⟨r, hr, he⟩
    rw [← he]
    exact ⟨hr, rfl⟩
  · rintro ⟨h1, h2⟩
    refine ⟨p.1, h1, ?_⟩
    rw [← h2]

theorem mem_levelWrites {lr : List ((Nat × Nat) × MidOutcome)} {w : Nat × Image}
    (h : w ∈ levelWrites lr) : ∃ p ∈ lr, p.2 = MidOutcome.ok w.1 w.2 := by
  obtain ⟨p, hp, he⟩ := List.mem_filterMap.mp h
  refine ⟨p, hp, ?_⟩
  cases hm : p.2 with
  | skipped => rw [hm] at he; simp at he
  | failed i => rw [hm] at he; simp at he
  | ok i img =>
    rw [hm] at he
    simp only [Option.some.injEq] at he
    rw [← he]

/-! generateSingleFrame case analysis. -/

theorem gsf_ok_spec {env : Env} {fr : List (Option Image)} {fp : List Pose}
    {s e i : Nat} {img : Image}
    (h : generateSingleFrame env fr fp s e = .ok i img) :
    i = (s + e) / 2 ∧ (getSlot fr s).isSome ∧ (getSlot fr e).isSome ∧
      env.midResult s e = some img := by
  unfold generateSingleFrame at h
  by_cases hc : ((getSlot fr s).isNone || (getSlot fr e).isNone
      || (fp[s]?).isNone || (fp[(s + e) / 2]?).isNone) = true
  · rw [if_pos hc] at h
    simp at h
  · rw [if_neg hc] at h
    simp only [Bool.or_eq_true, not_or, Bool.not_eq_true, Option.isNone_eq_false_iff] at hc
    obtain ⟨⟨⟨h1, h2⟩, _⟩, _⟩ := hc
    cases hm : env.midResult s e with
    | none => rw [hm] at h; simp at h
    | some im =>
      rw [hm] at h
      simp only [MidOutcome.ok.injEq] at h
      exact ⟨h.1.symm, h1, h2, by rw [h.2]⟩


/-- C3 key fact shape: a non-skipped outcome means both boundary slots
    were filled when the batch was dispatched. -/
theorem gsf_not_skipped {env : Env} {fr : List (Option Image)} {fp : List Pose}
    {s e : Nat} (h : generateSingleFrame env fr fp s e ≠ .skipped) :
    (getSlot fr s).isSome ∧ (getSlot fr e).isSome := by
  unfold generateSingleFrame at h
  by_cases hc : ((getSlot fr s).isNone || (getSlot fr e).isNone
      || (fp[s]?).isNone || (fp[(s + e) / 2]?).isNone) = true
  · rw [if_pos hc] at h
    exact absurd rfl h
  · simp only [Bool.or_eq_true, not_or, Bool.not_eq_true, Option.isNone_eq_false_iff] at hc
    exact ⟨hc.1.1.1, hc.1.1.2⟩

/-! Geometric helper lemmas for ranges. -/

theorem splitRange_bounds {r c : Nat × Nat} (hc : c ∈ splitRange r)
    (hr : r.1 ≤ r.2) : r.1 ≤ c.1 ∧ c.1 ≤ c.2 ∧ c.2 ≤ r.2 := by
  rcases mem_splitRange.mp hc with e | e <;> subst e <;>
    simp only [rmid] <;> omega

theorem rmid_strict {r : Nat × Nat} (hg : 1 < gap r) :
    r.1 < rmid r ∧ rmid r < r.2 := by
  simp only [gap] at hg
  simp only [rmid]
  omega

theorem interiors_disjoint {rs : List (Nat × Nat)}
    (hs : rs.Pairwise fun a b => a.2 ≤ b.1) {i : Nat} :
    ∀ r₁ ∈ rs, ∀ r₂ ∈ rs, r₁.1 < i → i < r₁.2 → r₂.1 < i → i < r₂.2 →
      r₁ = r₂ := by
  induction rs with
  | nil => intro r₁ h; simp at h
  | cons x xs ih =>
    intro r₁ h₁ r₂ h₂ ha hb hc hd
    rw [List.pairwise_cons] at hs
    rcases List.mem_cons.mp h₁ with e₁ | e₁ <;> rcases List.mem_cons.mp h₂ with e₂ | e₂
    · rw [e₁, e₂]
    · subst e₁
      have := hs.1 r₂ e₂
      omega
    · subst e₂
      have := hs.1 r₁ e₁
      omega
    · exact ih hs.2 r₁ e₁ r₂ e₂ ha hb hc hd

theorem pairwise_nextRanges {rs : List (Nat × Nat)}
    (hs : rs.Pairwise fun a b => a.2 ≤ b.1) (hwf : ∀ r ∈ rs, r.1 ≤ r.2) :
    (nextRanges rs).Pairwise fun a b => a.2 ≤ b.1 := by
  induction rs with
  | nil => exact List.Pairwise.nil
  | cons x xs ih =>
    rw [List.pairwise_cons] at hs
    rw [show nextRanges (x :: xs) = splitRange x ++ nextRanges xs from rfl]
    apply List.pairwise_append.mpr
    refine ⟨?_, ih hs.2 (fun r hr => hwf r (by simp [hr])), ?_⟩
    · have hx := hwf x (by simp)
      simp only [splitRange, List.pairwise_cons, List.mem_singleton,
        List.pairwise_cons, List.Pairwise.nil]
      constructor
      · intro c hc
        subst hc
        exact le_rfl
      · simp
    · intro a ha b hb
      obtain ⟨r', hr', hbr'⟩ := mem_nextRanges.mp hb
      have hsb := splitRange_bounds hbr' (hwf r' (by simp [hr']))
      have hsa := splitRange_bounds ha (hwf x (by simp))
      have hxr : x.2 ≤ r'.1 := hs.1 r' hr'
      omega

/-- A midpoint of a width-over-1 range of the chain never lies strictly
    inside a child of any chain range. -/
theorem mid_not_in_child {rs : List (Nat × Nat)}
    (hs : rs.Pairwise fun a b => a.2 ≤ b.1) (hwf : ∀ r ∈ rs, r.1 ≤ r.2)
    {r : Nat × Nat} (hr : r ∈ rs) {c : Nat × Nat} (hc : c ∈ splitRange r)
    {p : Nat × Nat} (hp : p ∈ rs) (hg : 1 < gap p) :
    ¬(c.1 < rmid p ∧ rmid p < c.2) := by
  rintro ⟨h1, h2⟩
  have hrwf := hwf r hr
  have hinR : r.1 < rmid p ∧ rmid p < r.2 := by
    rcases mem_splitRange.mp hc with e | e <;> subst e <;>
      simp only [rmid] at h1 h2 ⊢ <;> omega
  have hstrictP := rmid_strict hg
  have heq : r = p :=
    interiors_disjoint hs r hr p hp hinR.1 hinR.2 hstrictP.1 hstrictP.2
  subst heq
  rcases mem_splitRange.mp hc with e | e <;> subst e <;>
    simp only [rmid] at h1 h2 <;> omega

/-! Write-batch structure lemmas. -/

theorem getSlot_writeAll_mem :
    ∀ (ws : List (Nat × Image)) (frames : List (Option Image)) (w : Nat × Image),
    w ∈ ws → w.1 < frames.length → getSlot (writeAll frames ws) w.1 ≠ none := by
  intro ws
  induction ws with
  | nil => intro frames w h; simp at h
  | cons v vs ih =>
    intro frames w h hlen
    rw [show writeAll frames (v :: vs) = writeAll (frames.set v.1 (some v.2)) vs from rfl]
    rcases List.mem_cons.mp h with e | e
    · subst e
      intro hcon
      have hsome : (getSlot (frames.set w.1 (some w.2)) w.1).isSome := by
        rw [getSlot_set, if_pos ⟨rfl, hlen⟩]
        rfl
      have := getSlot_writeAll_isSome vs (frames.set w.1 (some w.2)) w.1 hsome
      rw [hcon] at this
      simp at this
    · exact ih _ w e (by rw [List.length_set]; exact hlen)

theorem getSlot_replicate (n i : Nat) :
    getSlot (List.replicate n (none : Option Image)) i = none := by
  induction n generalizing i with
  | zero => rfl
  | succ n ih =>
    cases i with
    | zero => rfl
    | succ i =>
      rw [List.replicate_succ]
      exact ih i

theorem mids_nodup_of_sorted {l : List (Nat × Nat)}
    (hs : l.Pairwise fun a b => a.2 ≤ b.1) (hg : ∀ r ∈ l, 1 < gap r) :
    (l.map rmid).Nodup := by
  have h : l.Pairwise fun a b => rmid a ≠ rmid b := by
    apply hs.imp_of_mem
    intro a b ha hb hr
    have h1 := rmid_strict (hg a ha)
    have h2 := rmid_strict (hg b hb)
    omega
  exact List.pairwise_map.mpr h

theorem mem_LW_spec {env : Env} {fp : List Pose} {fr : List (Option Image)}
    {rs : List (Nat × Nat)} {w : Nat × Image}
    (h : w ∈ levelWrites (levelResults env fp fr rs)) :
    ∃ r ∈ rs, 1 < gap r ∧ w.1 = rmid r ∧
      (getSlot fr r.1).isSome ∧ (getSlot fr r.2).isSome := by
  obtain ⟨p, hp, he⟩ := mem_levelWrites h
  obtain ⟨hac, hgsf⟩ := mem_levelResults.mp hp
  obtain ⟨hmem, hgap⟩ := mem_activeRanges.mp hac
  have hok : generateSingleFrame env fr fp p.1.1 p.1.2 = .ok w.1 w.2 := by
    rw [← hgsf, he]
  obtain ⟨hi, hsome1, hsome2, _⟩ := gsf_ok_spec hok
  exact ⟨p.1, hmem, hgap, by rw [hi]; rfl, hsome1, hsome2⟩

theorem levelWrites_fst_sublist (env : Env) (fp : List Pose)
    (fr : List (Option Image)) :
    ∀ (ac : List (Nat × Nat)),
    ((levelWrites (ac.map fun r => (r, generateSingleFrame env fr fp r.1 r.2))).map
      Prod.fst).Sublist (ac.map rmid) := by
  intro ac
  induction ac with
  | nil => simp [levelWrites]
  | cons r rest ih =>
    rw [List.map_cons, List.map_cons]
    cases hg : generateSingleFrame env fr fp r.1 r.2 with
    | ok i img =>
      have hi : i = rmid r := by
        have := (gsf_ok_spec hg).1
        rw [this]
        rfl
      simp only [levelWrites, List.filterMap_cons, hg]
      rw [List.map_cons]
      rw [show (i, img).1 = rmid r from hi]
      exact (ih).cons₂ (rmid r)
    | skipped =>
      simp only [levelWrites, List.filterMap_cons, hg]
      exact (ih).cons (rmid r)
    | failed i =>
      simp only [levelWrites, List.filterMap_cons, hg]
      exact (ih).cons (rmid r)

/-- One bisection level preserves the loop invariant. -/
theorem loopInv_runLevel (n : Nat) (env : Env) (fp : List Pose)
    {st : RunState} {rs : List (Nat × Nat)} (inv : LoopInv n st rs) :
    LoopInv n (runLevel env fp st rs) (nextRanges rs) := by
  have hwf1 : ∀ r ∈ rs, r.1 ≤ r.2 := fun r hr => (inv.wf r hr).1
  have hLW : ∀ w ∈ levelWrites (levelResults env fp st.frames rs),
      ∃ r ∈ rs, 1 < gap r ∧ w.1 = rmid r := by
    intro w hw
    obtain ⟨r, hr, hg, he, _, _⟩ := mem_LW_spec hw
    exact ⟨r, hr, hg, he⟩
  have hLWint : ∀ w ∈ levelWrites (levelResults env fp st.frames rs),
      0 < w.1 ∧ w.1 < n - 1 ∧ getSlot st.frames w.1 = none := by
    intro w hw
    obtain ⟨r, hr, hg, he⟩ := hLW w hw
    have hwfr := inv.wf r hr
    have hstrict := rmid_strict hg
    refine ⟨by omega, by omega, ?_⟩
    rw [he]
    exact inv.interior r hr (rmid r) hstrict.1 hstrict.2
  have hACsorted : (activeRanges rs).Pairwise fun a b => a.2 ≤ b.1 :=
    inv.sorted.sublist (List.filter_sublist rs)
  have hACmids : ((activeRanges rs).map rmid).Nodup :=
    mids_nodup_of_sorted hACsorted (fun r hr => (mem_activeRanges.mp hr).2)
  have hLWnodup : ((levelWrites (levelResults env fp st.frames rs)).map Prod.fst).Nodup :=
    hACmids.sublist (levelWrites_fst_sublist env fp st.frames (activeRanges rs))
  constructor
  case flen =>
    rw [runLevel_frames, writeAll_length]
    exact inv.flen
  case sorted => exact pairwise_nextRanges inv.sorted hwf1
  case wf =>
    intro c hc
    obtain ⟨r, hr, hcr⟩ := mem_nextRanges.mp hc
    have hb := splitRange_bounds hcr (hwf1 r hr)
    have h2 := (inv.wf r hr).2
    omega
  case interior =>
    intro c hc i h1 h2
    rw [runLevel_frames]
    obtain ⟨r, hr, hcr⟩ := mem_nextRanges.mp hc
    have hrwf := hwf1 r hr
    have hmidb : r.1 ≤ rmid r ∧ rmid r ≤ r.2 := by
      simp only [rmid]
      omega
    have hinR : r.1 < i ∧ i < r.2 := by
      rcases mem_splitRange.mp hcr with e | e <;> subst e <;>
        dsimp only at h1 h2 <;> omega
    have hni : i ∉ (levelWrites (levelResults env fp st.frames rs)).map Prod.fst := by
      intro hmem
      obtain ⟨w, hw, hwi⟩ := List.mem_map.mp hmem
      obtain ⟨r', hr', hg', he'⟩ := hLW w hw
      have hieq : i = rmid r' := by rw [← hwi, he']
      apply mid_not_in_child inv.sorted hwf1 hr hcr hr' hg'
      exact ⟨hieq ▸ h1, hieq ▸ h2⟩
    rw [getSlot_writeAll_notMem _ _ _ hni]
    exact inv.interior r hr i hinR.1 hinR.2
  case wIdx =>
    rw [runLevel_writes]
    intro w hw
    rcases List.mem_append.mp hw with h | h
    · exact inv.wIdx w h
    · have := hLWint w h
      omega
  case wSome =>
    rw [runLevel_writes, runLevel_frames]
    intro w hw
    rcases List.mem_append.mp hw with h | h
    · have h1 : (getSlot st.frames w.1).isSome :=
        Option.isSome_iff_ne_none.mpr (inv.wSome w h)
      exact Option.isSome_iff_ne_none.mp (getSlot_writeAll_isSome _ _ _ h1)
    · apply getSlot_writeAll_mem _ _ w h
      have := hLWint w h
      rw [inv.flen]
      omega
  case wNodup =>
    rw [runLevel_writes, List.map_append]
    apply inv.wNodup.append hLWnodup
    intro i h1 h2
    obtain ⟨w, hw, hwi⟩ := List.mem_map.mp h2
    obtain ⟨_, _, hfresh⟩ := hLWint w hw
    obtain ⟨w', hw', hwi'⟩ := List.mem_map.mp h1
    have hsome := inv.wSome w' hw'
    rw [hwi'] at hsome
    rw [hwi] at hfresh
    exact hsome hfresh
  case pGap =>
    rw [runLevel_processed]
    intro p hp
    rcases List.mem_append.mp hp with h | h
    · exact inv.pGap p h
    · obtain ⟨hmem, hg⟩ := mem_activeRanges.mp h
      exact ⟨hg, (inv.wf p hmem).2⟩
  case pInt =>
    rw [runLevel_processed]
    intro c hc p hp
    obtain ⟨r, hr, hcr⟩ := mem_nextRanges.mp hc
    rcases List.mem_append.mp hp with h | h
    · rintro ⟨h1, h2⟩
      apply inv.pInt r hr p h
      have hrwf := hwf1 r hr
      have hmidb : r.1 ≤ rmid r ∧ rmid r ≤ r.2 := by
        simp only [rmid]
        omega
      rcases mem_splitRange.mp hcr with e | e <;> subst e <;>
        dsimp only at h1 h2 <;> exact ⟨by omega, by omega⟩
    · obtain ⟨hmem, hg⟩ := mem_activeRanges.mp h
      exact mid_not_in_child inv.sorted hwf1 hr hcr hmem hg
  case pNodup =>
    rw [runLevel_processed, List.map_append]
    apply inv.pNodup.append hACmids
    intro i h1 h2
    obtain ⟨p, hpAC, hpi⟩ := List.mem_map.mp h2
    obtain ⟨hpmem, hpg⟩ := mem_activeRanges.mp hpAC
    obtain ⟨q, hq, hqi⟩ := List.mem_map.mp h1
    have hstrict := rmid_strict hpg
    apply inv.pInt p hpmem q hq
    rw [hqi, ← hpi]
    exact hstrict
  case tMid =>
    rw [runLevel_trace]
    intro s e hmem
    rcases List.mem_append.mp hmem with h | h
    · exact inv.tMid s e h
    · obtain ⟨p, hp, he, _⟩ := mem_levelCalls h
      obtain ⟨hac, _⟩ := mem_levelResults.mp hp
      obtain ⟨hmem', hg⟩ := mem_activeRanges.mp hac
      have hwfp := inv.wf p.1 hmem'
      simp only [Call.midCall.injEq] at he
      obtain ⟨h1, h2⟩ := he
      subst h1
      subst h2
      exact ⟨hg, hwfp.2⟩
  case prog =>
    rw [runLevel_progress, runLevel_writes, List.countP_append]
    have hall : (levelWrites (levelResults env fp st.frames rs)).countP
        (fun w => decide (0 < w.1 ∧ w.1 < n - 1)) =
        (levelWrites (levelResults env fp st.frames rs)).length := by
      rw [List.countP_eq_length]
      intro w hw
      have := hLWint w hw
      simp only [decide_eq_true_eq]
      exact ⟨this.1, this.2.1⟩
    rw [hall, inv.prog]
    omega

/-- Every successful write of a batch targets a fresh strictly-interior slot. -/
theorem levelWrites_interior (n : Nat) (env : Env) (fp : List Pose)
    {st : RunState} {rs : List (Nat × Nat)} (inv : LoopInv n st rs) :
    ∀ w ∈ levelWrites (levelResults env fp st.frames rs),
      0 < w.1 ∧ w.1 < n - 1 ∧ getSlot st.frames w.1 = none := by
  intro w hw
  obtain ⟨r, hr, hg, he, _, _⟩ := mem_LW_spec hw
  have hwfr := inv.wf r hr
  have hstrict := rmid_strict hg
  refine ⟨by omega, by omega, ?_⟩
  rw [he]
  exact inv.interior r hr (rmid r) hstrict.1 hstrict.2

theorem histOK_runLevel (env : Env) (fp : List Pose) (st : RunState)
    (rs : List (Nat × Nat)) (h : HistOK st) : HistOK (runLevel env fp st rs) := by
  have h1 : HistOK { st with
      trace := st.trace ++ levelCalls (levelResults env fp st.frames rs),
      processed := st.processed ++ activeRanges rs } := h
  have h2 : HistOK (if 0 < (levelWrites (levelResults env fp st.frames rs)).length
      then addCost { st with
          trace := st.trace ++ levelCalls (levelResults env fp st.frames rs),
          processed := st.processed ++ activeRanges rs }
        (((levelWrites (levelResults env fp st.frames rs)).length : ℚ) *
          IMAGE_GENERATION_PRICE_PER_IMAGE)
      else { st with
          trace := st.trace ++ levelCalls (levelResults env fp st.frames rs),
          processed := st.processed ++ activeRanges rs }) := by
    split
    · apply histOK_addCost ?_ h1
      unfold IMAGE_GENERATION_PRICE_PER_IMAGE
      positivity
    · exact h1
  have h3 : HistOK { (if 0 < (levelWrites (levelResults env fp st.frames rs)).length
      then addCost { st with
          trace := st.trace ++ levelCalls (levelResults env fp st.frames rs),
          processed := st.processed ++ activeRanges rs }
        (((levelWrites (levelResults env fp st.frames rs)).length : ℚ) *
          IMAGE_GENERATION_PRICE_PER_IMAGE)
      else { st with
          trace := st.trace ++ levelCalls (levelResults env fp st.frames rs),
          processed := st.processed ++ activeRanges rs }) with
      frames := writeAll (if 0 < (levelWrites (levelResults env fp st.frames rs)).length
      then addCost { st with
          trace := st.trace ++ levelCalls (levelResults env fp st.frames rs),
          processed := st.processed ++ activeRanges rs }
        (((levelWrites (levelResults env fp st.frames rs)).length : ℚ) *
          IMAGE_GENERATION_PRICE_PER_IMAGE)
      else { st with
          trace := st.trace ++ levelCalls (levelResults env fp st.frames rs),
          processed := st.processed ++ activeRanges rs }).frames
        (levelWrites (levelResults env fp st.frames rs)),
      writes := (if 0 < (levelWrites (levelResults env fp st.frames rs)).length
      then addCost { st with
          trace := st.trace ++ levelCalls (levelResults env fp st.frames rs),
          processed := st.processed ++ activeRanges rs }
        (((levelWrites (levelResults env fp st.frames rs)).length : ℚ) *
          IMAGE_GENERATION_PRICE_PER_IMAGE)
      else { st with
          trace := st.trace ++ levelCalls (levelResults env fp st.frames rs),
          processed := st.processed ++ activeRanges rs }).writes ++
        levelWrites (levelResults env fp st.frames rs) } := h2
  exact histOK_setProgressTo (Nat.le_add_right _ _) h3

theorem histOK_bisectLoop (env : Env) (fp : List Pose) :
    ∀ (fuel : Nat) (st : RunState) (rs : List (Nat × Nat)),
    HistOK st → HistOK (bisectLoop env fp fuel st rs) := by
  intro fuel
  induction fuel with
  | zero => intro st rs h; exact h
  | succ f ih =>
    intro st rs h
    by_cases hc : (rs.any fun r => decide (1 < gap r)) = true
    · rw [bisectLoop_succ, if_pos hc]
      exact ih _ _ (histOK_runLevel env fp st rs h)
    · rw [bisectLoop_succ, if_neg hc]
      exact h

/-- Master consequences of the bisection loop: the invariant holds at the
    end for the terminal work list, the loop only appends writes with
    strictly interior indices, and slots outside the appended write indices
    are untouched. -/
theorem bisectLoop_master (n : Nat) (env : Env) (fp : List Pose) :
    ∀ (fuel : Nat) (st : RunState) (rs : List (Nat × Nat)), LoopInv n st rs →
    (∃ rs2, LoopInv n (bisectLoop env fp fuel st rs) rs2) ∧
    (∃ nw, (bisectLoop env fp fuel st rs).writes = st.writes ++ nw ∧
      (∀ w ∈ nw, 0 < w.1 ∧ w.1 < n - 1) ∧
      (∀ i, i ∉ nw.map Prod.fst →
        getSlot (bisectLoop env fp fuel st rs).frames i = getSlot st.frames i)) := by
  intro fuel
  induction fuel with
  | zero =>
    intro st rs inv
    exact ⟨⟨rs, inv⟩, ⟨[], by simp [bisectLoop_zero], by simp,
      fun i _ => by rw [bisectLoop_zero]⟩⟩
  | succ f ih =>
    intro st rs inv
    by_cases hc : (rs.any fun r => decide (1 < gap r)) = true
    · have inv2 := loopInv_runLevel n env fp inv
      obtain ⟨hex, ⟨nw, hw1, hw2, hframes⟩⟩ :=
        ih (runLevel env fp st rs) (nextRanges rs) inv2
      rw [bisectLoop_succ, if_pos hc]
      refine ⟨hex, ⟨levelWrites (levelResults env fp st.frames rs) ++ nw, ?_, ?_, ?_⟩⟩
      · rw [hw1, runLevel_writes, List.append_assoc]
      · intro w hw
        rcases List.mem_append.mp hw with h | h
        · have := levelWrites_interior n env fp inv w h
          exact ⟨this.1, this.2.1⟩
        · exact hw2 w h
      · intro i hi
        rw [List.map_append] at hi
        have hi1 : i ∉ (levelWrites (levelResults env fp st.frames rs)).map Prod.fst :=
          fun h => hi (List.mem_append.mpr (Or.inl h))
        have hi2 : i ∉ nw.map Prod.fst :=
          fun h => hi (List.mem_append.mpr (Or.inr h))
        rw [hframes i hi2, runLevel_frames]
        exact getSlot_writeAll_notMem _ _ _ hi1
    · rw [bisectLoop_succ, if_neg hc]
      exact ⟨⟨rs, inv⟩, ⟨[], by simp, by simp, fun i _ => rfl⟩⟩

/-- The endpoint slots 0 and n-1 are untouched by the loop. -/
theorem bisectLoop_endpoints_untouched (n : Nat) (env : Env) (fp : List Pose)
    (fuel : Nat) (st : RunState) (rs : List (Nat × Nat)) (inv : LoopInv n st rs) :
    ∀ i, i = 0 ∨ n - 1 ≤ i →
      getSlot (bisectLoop env fp fuel st rs).frames i = getSlot st.frames i := by
  obtain ⟨_, ⟨nw, _, hw2, hframes⟩⟩ := bisectLoop_master n env fp fuel st rs inv
  intro i hi
  apply hframes
  intro hmem
  obtain ⟨w, hw, hwi⟩ := List.mem_map.mp hmem
  have := hw2 w hw
  omega

/-! Path reductions of generateAnimation. -/

theorem generateAnimation_invalid (n : Nat) (env : Env) (c : Bool)
    (h : ¬ validPlanCheck n env.planResult = true) :
    generateAnimation n env c = (planCost env (initState n), some .invalidPlan) := by
  unfold generateAnimation
  unfold validPlanCheck at h
  cases hp : env.planResult with
  | none => simp [hp]
  | some plan =>
    rw [hp] at h
    simp only [hp]
    rw [if_neg h]

theorem generateAnimation_valid (n : Nat) (env : Env) (c : Bool)
    (plan : List PlanElem) (hp : env.planResult = some plan)
    (hlen : plan.length = n) (hall : plan.all Option.isSome = true) :
    generateAnimation n env c =
      runWithPlan n env c (plan.filterMap id) (planCost env (initState n)) := by
  unfold generateAnimation
  simp only [hp]
  rw [if_pos (by rw [hlen, hall]; simp)]

theorem runWithPlan_noFirst (n : Nat) (env : Env) (c : Bool) (fp : List Pose)
    (st0 : RunState) (hf : env.firstResult = none) :
    runWithPlan n env c fp st0 =
      (issueCall (setProgressTo st0 1) .firstCall, some .noFirstFrame) := by
  unfold runWithPlan
  simp only [hf]

theorem runWithPlan_noLast (n : Nat) (env : Env) (fp : List Pose)
    (st0 : RunState) (f : Image) (hf : env.firstResult = some f)
    (hl : env.lastResult = none) :
    runWithPlan n env false fp st0 =
      (issueCall (setProgressTo (writeSlot (addCost (issueCall (setProgressTo st0 1)
          .firstCall) IMAGE_GENERATION_PRICE_PER_IMAGE) 0 f)
        ((writeSlot (addCost (issueCall (setProgressTo st0 1) .firstCall)
          IMAGE_GENERATION_PRICE_PER_IMAGE) 0 f).progress + 1)) .lastCall,
       some .noLastFrame) := by
  unfold runWithPlan
  simp only [hf, hl, Bool.false_eq_true, if_false]

theorem generateAnimation_noFirst (n : Nat) (env : Env) (c : Bool)
    (plan : List PlanElem) (hp : env.planResult = some plan)
    (hlen : plan.length = n) (hall : plan.all Option.isSome = true)
    (hf : env.firstResult = none) :
    generateAnimation n env c = (preFirst n env, some .noFirstFrame) := by
  rw [generateAnimation_valid n env c plan hp hlen hall,
    runWithPlan_noFirst n env c _ _ hf]
  rfl

theorem generateAnimation_noLast (n : Nat) (env : Env)
    (plan : List PlanElem) (f : Image) (hp : env.planResult = some plan)
    (hlen : plan.length = n) (hall : plan.all Option.isSome = true)
    (hf : env.firstResult = some f) (hl : env.lastResult = none) :
    generateAnimation n env false =
      (issueCall (entryCommon n env f) .lastCall, some .noLastFrame) := by
  rw [generateAnimation_valid n env false plan hp hlen hall,
    runWithPlan_noLast n env _ _ f hf hl]
  rfl

theorem generateAnimation_nc_run (n : Nat) (env : Env)
    (plan : List PlanElem) (f l : Image) (hp : env.planResult = some plan)
    (hlen : plan.length = n) (hall : plan.all Option.isSome = true)
    (hf : env.firstResult = some f) (hl : env.lastResult = some l) :
    generateAnimation n env false =
      (if ((bisectLoop env (plan.filterMap id) n (entryNC n env f l)
            [(0, n - 1)]).frames.filterMap id).length < 2
       then (bisectLoop env (plan.filterMap id) n (entryNC n env f l) [(0, n - 1)],
         some .insufficientFrames)
       else (setProgressTo (bisectLoop env (plan.filterMap id) n (entryNC n env f l)
           [(0, n - 1)]) (n + 1), none)) := by
  rw [generateAnimation_valid n env false plan hp hlen hall]
  unfold runWithPlan
  simp only [hf, hl, Bool.false_eq_true, if_false]
  rfl

theorem generateAnimation_cyc_run (n : Nat) (env : Env)
    (plan : List PlanElem) (f : Image) (hp : env.planResult = some plan)
    (hlen : plan.length = n) (hall : plan.all Option.isSome = true)
    (hf : env.firstResult = some f) :
    generateAnimation n env true =
      (if ((bisectLoop env (plan.filterMap id) n (entryCyc n env f)
            [(0, n - 1)]).frames.filterMap id).length < 2
       then (bisectLoop env (plan.filterMap id) n (entryCyc n env f) [(0, n - 1)],
         some .insufficientFrames)
       else (setProgressTo (bisectLoop env (plan.filterMap id) n (entryCyc n env f)
           [(0, n - 1)]) (n + 1), none)) := by
  rw [generateAnimation_valid n env true plan hp hlen hall]
  unfold runWithPlan
  simp only [hf, if_true]
  rfl

/-! Entry-state facts. -/

theorem preFirst_trace (n : Nat) (env : Env) :
    (preFirst n env).trace = [Call.firstCall] := by
  simp [preFirst, initState]

theorem entryCommon_trace (n : Nat) (env : Env) (f : Image) :
    (entryCommon n env f).trace = [Call.firstCall] := by
  simp [entryCommon, preFirst, initState]

theorem entryNC_trace (n : Nat) (env : Env) (f l : Image) :
    (entryNC n env f l).trace = [Call.firstCall, Call.lastCall] := by
  simp [entryNC, entryCommon, preFirst, initState]

theorem entryCyc_trace (n : Nat) (env : Env) (f : Image) :
    (entryCyc n env f).trace = [Call.firstCall] := by
  simp [entryCyc, entryCommon, preFirst, initState]

theorem entryNC_frames (n : Nat) (env : Env) (f l : Image) :
    (entryNC n env f l).frames =
      ((List.replicate n none).set 0 (some f)).set (n - 1) (some l) := by
  simp [entryNC, entryCommon, preFirst, initState]

theorem entryCyc_frames (n : Nat) (env : Env) (f : Image) :
    (entryCyc n env f).frames =
      ((List.replicate n none).set 0 (some f)).set (n - 1) (some f) := by
  simp [entryCyc, entryCommon, preFirst, initState]

theorem entryNC_writes (n : Nat) (env : Env) (f l : Image) :
    (entryNC n env f l).writes = [(0, f), (n - 1, l)] := by
  simp [entryNC, entryCommon, preFirst, initState]

theorem entryCyc_writes (n : Nat) (env : Env) (f : Image) :
    (entryCyc n env f).writes = [(0, f), (n - 1, f)] := by
  simp [entryCyc, entryCommon, preFirst, initState]

theorem entryNC_processed (n : Nat) (env : Env) (f l : Image) :
    (entryNC n env f l).processed = [] := by
  simp [entryNC, entryCommon, preFirst, initState]

theorem entryCyc_processed (n : Nat) (env : Env) (f : Image) :
    (entryCyc n env f).processed = [] := by
  simp [entryCyc, entryCommon, preFirst, initState]

theorem entryNC_progress (n : Nat) (env : Env) (f l : Image) :
    (entryNC n env f l).progress = 3 := by
  simp [entryNC, entryCommon, preFirst, initState]

theorem entryCyc_progress (n : Nat) (env : Env) (f : Image) :
    (entryCyc n env f).progress = 3 := by
  simp [entryCyc, entryCommon, preFirst, initState]

theorem entryNC_levels (n : Nat) (env : Env) (f l : Image) :
    (entryNC n env f l).levels = 0 := by
  simp [entryNC, entryCommon, preFirst, initState]

theorem entryCyc_levels (n : Nat) (env : Env) (f : Image) :
    (entryCyc n env f).levels = 0 := by
  simp [entryCyc, entryCommon, preFirst, initState]

theorem histOK_preFirst (n : Nat) (env : Env) : HistOK (preFirst n env) :=
  histOK_issueCall _ (histOK_setProgressTo (by simp [initState])
    (histOK_planCost env (histOK_initState n)))

theorem histOK_entryCommon (n : Nat) (env : Env) (f : Image) :
    HistOK (entryCommon n env f) := by
  unfold entryCommon
  exact histOK_setProgressTo (Nat.le_add_right _ _)
    (histOK_writeSlot _ _ (histOK_addCost
      (by unfold IMAGE_GENERATION_PRICE_PER_IMAGE; positivity)
      (histOK_preFirst n env)))

theorem histOK_entryCyc (n : Nat) (env : Env) (f : Image) :
    HistOK (entryCyc n env f) := by
  unfold entryCyc
  exact histOK_setProgressTo (Nat.le_add_right _ _)
    (histOK_writeSlot _ _ (histOK_entryCommon n env f))

theorem histOK_entryNC (n : Nat) (env : Env) (f l : Image) :
    HistOK (entryNC n env f l) := by
  unfold entryNC
  exact histOK_setProgressTo (Nat.le_add_right _ _)
    (histOK_writeSlot _ _ (histOK_addCost
      (by unfold IMAGE_GENERATION_PRICE_PER_IMAGE; positivity)
      (histOK_issueCall _ (histOK_entryCommon n env f))))

/-! Loop invariant at the entry of the bisection phase. -/

theorem loopInv_entry_generic (n : Nat) (hn : 2 ≤ n) (a b : Image) (st : RunState)
    (hf : st.frames = ((List.replicate n none).set 0 (some a)).set (n - 1) (some b))
    (hw : st.writes = [(0, a), (n - 1, b)])
    (hpr : st.processed = [])
    (hprog : st.progress = 3)
    (htr : ∀ s e, Call.midCall s e ∉ st.trace) :
    LoopInv n st [(0, n - 1)] := by
  constructor
  case flen => rw [hf]; simp
  case sorted => exact List.pairwise_singleton _ _
  case wf =>
    intro r hr
    simp only [List.mem_singleton] at hr
    subst hr
    dsimp only
    omega
  case interior =>
    intro r hr i h1 h2
    simp only [List.mem_singleton] at hr
    subst hr
    dsimp only at h1 h2
    rw [hf, getSlot_set, if_neg (by rintro ⟨e, _⟩; omega),
      getSlot_set, if_neg (by rintro ⟨e, _⟩; omega), getSlot_replicate]
  case wIdx =>
    intro w hw2
    rw [hw] at hw2
    simp only [List.mem_cons, List.mem_singleton, List.not_mem_nil, or_false] at hw2
    rcases hw2 with h | h <;> subst h <;> dsimp only <;> omega
  case wSome =>
    intro w hw2
    rw [hw] at hw2
    simp only [List.mem_cons, List.mem_singleton, List.not_mem_nil, or_false] at hw2
    rw [hf]
    rcases hw2 with h | h <;> subst h <;> dsimp only
    · rw [getSlot_set, if_neg (by rintro ⟨e, _⟩; omega), getSlot_set,
        if_pos ⟨rfl, by rw [List.length_replicate]; omega⟩]
      simp
    · rw [getSlot_set,
        if_pos ⟨rfl, by rw [List.length_set, List.length_replicate]; omega⟩]
      simp
  case wNodup =>
    rw [hw]
    simp only [List.map_cons, List.map_nil]
    rw [List.nodup_cons]
    constructor
    · simp only [List.mem_singleton]
      omega
    · exact List.nodup_singleton _
  case pGap =>
    intro p hp
    rw [hpr] at hp
    simp at hp
  case pInt =>
    intro r hr p hp
    rw [hpr] at hp
    simp at hp
  case pNodup =>
    rw [hpr]
    exact List.nodup_nil
  case tMid =>
    intro s e hmem
    exact absurd hmem (htr s e)
  case prog =>
    rw [hprog, hw]
    simp [List.countP_cons]

theorem loopInv_entryNC (n : Nat) (env : Env) (f l : Image) (hn : 2 ≤ n) :
    LoopInv n (entryNC n env f l) [(0, n - 1)] := by
  apply loopInv_entry_generic n hn f l _ (entryNC_frames n env f l)
    (entryNC_writes n env f l) (entryNC_processed n env f l)
    (entryNC_progress n env f l)
  intro s e h
  rw [entryNC_trace] at h
  simp at h

theorem loopInv_entryCyc (n : Nat) (env : Env) (f : Image) (hn : 2 ≤ n) :
    LoopInv n (entryCyc n env f) [(0, n - 1)] := by
  apply loopInv_entry_generic n hn f f _ (entryCyc_frames n env f)
    (entryCyc_writes n env f) (entryCyc_processed n env f)
    (entryCyc_progress n env f)
  intro s e h
  rw [entryCyc_trace] at h
  simp at h

/-! Counting lemmas for the final frame check and the progress bound. -/

theorem getSlot_cons_succ (x : Option Image) (xs : List (Option Image)) (k : Nat) :
    getSlot (x :: xs) (k + 1) = getSlot xs k := rfl

theorem filterMap_pos_of_filled :
    ∀ (l : List (Option Image)) (k : Nat), (getSlot l k).isSome →
    1 ≤ (l.filterMap id).length := by
  intro l
  induction l with
  | nil => intro k h; simp [getSlot] at h
  | cons x xs ih =>
    intro k h
    cases k with
    | zero =>
      cases x with
      | none => simp [getSlot] at h
      | some a => simp
    | succ k =>
      rw [getSlot_cons_succ] at h
      have h2 := ih k h
      cases x with
      | none => simpa using h2
      | some a =>
        simp only [List.filterMap_cons, id, List.length_cons]
        omega

theorem two_filled_le (l : List (Option Image)) :
    ∀ (i j : Nat), i < j → j < l.length → (getSlot l i).isSome →
    (getSlot l j).isSome → 2 ≤ (l.filterMap id).length := by
  induction l with
  | nil => intro i j hij hj _ _; simp at hj
  | cons x xs ih =>
    intro i j hij hj hi hj2
    cases j with
    | zero => omega
    | succ j =>
      rw [getSlot_cons_succ] at hj2
      cases i with
      | zero =>
        cases x with
        | none => simp [getSlot] at hi
        | some a =>
          have := filterMap_pos_of_filled xs j hj2
          simp only [List.filterMap_cons, id, List.length_cons]
          omega
      | succ i =>
        rw [getSlot_cons_succ] at hi
        have := ih i j (by omega) (by simpa using hj) hi hj2
        cases x with
        | none => simpa using this
        | some a =>
          simp only [List.filterMap_cons, id, List.length_cons]
          omega

theorem interior_writes_bound (n : Nat) {ws : List (Nat × Image)}
    (hnodup : (ws.map Prod.fst).Nodup) :
    ws.countP (fun w => decide (0 < w.1 ∧ w.1 < n - 1)) ≤ n - 2 := by
  rw [List.countP_eq_length_filter]
  have h1 : ((ws.filter fun w => decide (0 < w.1 ∧ w.1 < n - 1)).map Prod.fst).Nodup :=
    hnodup.sublist ((List.filter_sublist ws).map Prod.fst)
  have h2 : ∀ i ∈ (ws.filter fun w => decide (0 < w.1 ∧ w.1 < n - 1)).map Prod.fst,
      i ∈ Finset.Ioo 0 (n - 1) := by
    intro i hi
    obtain ⟨w, hwmem, hwi⟩ := List.mem_map.mp hi
    have := List.of_mem_filter hwmem
    simp only [decide_eq_true_eq] at this
    rw [Finset.mem_Ioo]
    omega
  calc (ws.filter fun w => decide (0 < w.1 ∧ w.1 < n - 1)).length
      = ((ws.filter fun w => decide (0 < w.1 ∧ w.1 < n - 1)).map Prod.fst).length := by
        rw [List.length_map]
    _ = ((ws.filter fun w => decide (0 < w.1 ∧ w.1 < n - 1)).map Prod.fst).toFinset.card := by
        rw [List.toFinset_card_of_nodup h1]
    _ ≤ (Finset.Ioo 0 (n - 1)).card := by
        apply Finset.card_le_card
        intro i hi
        exact h2 i (List.mem_toFinset.mp hi)
    _ = n - 2 := by
        rw [Nat.card_Ioo]
        omega

/-! Success-path consequences. -/

theorem getSlot_entryPair_zero (n : Nat) (a b : Image) (hn : 2 ≤ n) :
    getSlot (((List.replicate n (none : Option Image)).set 0 (some a)).set
      (n - 1) (some b)) 0 = some a := by
  rw [getSlot_set, if_neg (by rintro ⟨e, _⟩; omega), getSlot_set,
    if_pos ⟨rfl, by rw [List.length_replicate]; omega⟩]

theorem getSlot_entryPair_last (n : Nat) (a b : Image) (hn : 2 ≤ n) :
    getSlot (((List.replicate n (none : Option Image)).set 0 (some a)).set
      (n - 1) (some b)) (n - 1) = some b := by
  rw [getSlot_set,
    if_pos ⟨rfl, by rw [List.length_set, List.length_replicate]; omega⟩]

theorem validPlanCheck_spec {n : Nat} {pr : Option (List PlanElem)}
    (h : validPlanCheck n pr = true) :
    ∃ plan, pr = some plan ∧ plan.length = n ∧ plan.all Option.isSome = true := by
  unfold validPlanCheck at h
  cases pr with
  | none => simp at h
  | some plan =>
    simp only [Bool.and_eq_true, beq_iff_eq] at h
    exact ⟨plan, rfl, h.1, h.2⟩

theorem maxGap_singleton (r : Nat × Nat) : maxGap [r] = gap r := by
  simp [maxGap, maxGap_cons]

theorem maxGap_init (n : Nat) : maxGap [(0, n - 1)] = n - 1 := by
  rw [maxGap_singleton]
  simp [gap]

/-- Facts about the loop result on the non-cyclic success path. -/
theorem nc_loop_facts (n : Nat) (env : Env) (fp : List Pose) (f l : Image)
    (hn : 2 ≤ n) :
    getSlot (bisectLoop env fp n (entryNC n env f l) [(0, n - 1)]).frames 0 = some f ∧
    getSlot (bisectLoop env fp n (entryNC n env f l) [(0, n - 1)]).frames (n - 1) = some l ∧
    ¬(((bisectLoop env fp n (entryNC n env f l) [(0, n - 1)]).frames.filterMap id).length < 2) ∧
    (∃ rs2, LoopInv n (bisectLoop env fp n (entryNC n env f l) [(0, n - 1)]) rs2) ∧
    (∃ nw, (bisectLoop env fp n (entryNC n env f l) [(0, n - 1)]).writes =
      [(0, f), (n - 1, l)] ++ nw ∧ ∀ w ∈ nw, 0 < w.1 ∧ w.1 < n - 1) := by
  have inv := loopInv_entryNC n env f l hn
  obtain ⟨hex, hwsh⟩ :=
    bisectLoop_master n env fp n (entryNC n env f l) [(0, n - 1)] inv
  have hfr := bisectLoop_endpoints_untouched n env fp n (entryNC n env f l)
    [(0, n - 1)] inv
  have h0 : getSlot (bisectLoop env fp n (entryNC n env f l) [(0, n - 1)]).frames 0
      = some f := by
    rw [hfr 0 (Or.inl rfl), entryNC_frames]
    exact getSlot_entryPair_zero n f l hn
  have hN : getSlot (bisectLoop env fp n (entryNC n env f l) [(0, n - 1)]).frames
      (n - 1) = some l := by
    rw [hfr (n - 1) (Or.inr le_rfl), entryNC_frames]
    exact getSlot_entryPair_last n f l hn
  obtain ⟨rs2, inv2⟩ := hex
  refine ⟨h0, hN, ?_, ⟨rs2, inv2⟩, ?_⟩
  · intro hlt
    have h2 := two_filled_le _ 0 (n - 1) (by omega) (by rw [inv2.flen]; omega)
      (by rw [h0]; rfl) (by rw [hN]; rfl)
    omega
  · obtain ⟨nw, hw1, hw2, _⟩ := hwsh
    rw [entryNC_writes] at hw1
    exact ⟨nw, hw1, hw2⟩

/-- Facts about the loop result on the cyclic success path. -/
theorem cyc_loop_facts (n : Nat) (env : Env) (fp : List Pose) (f : Image)
    (hn : 2 ≤ n) :
    getSlot (bisectLoop env fp n (entryCyc n env f) [(0, n - 1)]).frames 0 = some f ∧
    getSlot (bisectLoop env fp n (entryCyc n env f) [(0, n - 1)]).frames (n - 1) = some f ∧
    ¬(((bisectLoop env fp n (entryCyc n env f) [(0, n - 1)]).frames.filterMap id).length < 2) ∧
    (∃ rs2, LoopInv n (bisectLoop env fp n (entryCyc n env f) [(0, n - 1)]) rs2) ∧
    (∃ nw, (bisectLoop env fp n (entryCyc n env f) [(0, n - 1)]).writes =
      [(0, f), (n - 1, f)] ++ nw ∧ ∀ w ∈ nw, 0 < w.1 ∧ w.1 < n - 1) := by
  have inv := loopInv_entryCyc n env f hn
  obtain ⟨hex, hwsh⟩ :=
    bisectLoop_master n env fp n (entryCyc n env f) [(0, n - 1)] inv
  have hfr := bisectLoop_endpoints_untouched n env fp n (entryCyc n env f)
    [(0, n - 1)] inv
  have h0 : getSlot (bisectLoop env fp n (entryCyc n env f) [(0, n - 1)]).frames 0
      = some f := by
    rw [hfr 0 (Or.inl rfl), entryCyc_frames]
    exact getSlot_entryPair_zero n f f hn
  have hN : getSlot (bisectLoop env fp n (entryCyc n env f) [(0, n - 1)]).frames
      (n - 1) = some f := by
    rw [hfr (n - 1) (Or.inr le_rfl), entryCyc_frames]
    exact getSlot_entryPair_last n f f hn
  obtain ⟨rs2, inv2⟩ := hex
  refine ⟨h0, hN, ?_, ⟨rs2, inv2⟩, ?_⟩
  · intro hlt
    have h2 := two_filled_le _ 0 (n - 1) (by omega) (by rw [inv2.flen]; omega)
      (by rw [h0]; rfl) (by rw [hN]; rfl)
    omega
  · obtain ⟨nw, hw1, hw2, _⟩ := hwsh
    rw [entryCyc_writes] at hw1
    exact ⟨nw, hw1, hw2⟩

/-! Claim theorems. -/

/-- C1 (counterexample): with N = 9, non-cyclic and every call succeeding,
    the scheduler does not issue exactly 8 image calls. -/
theorem claim_C1_counterexample :
    ¬((generateAnimation 9 envAll9 false).1.trace.length = 8) := by decide

/-- C2 (counterexample): a planner response that is an array of 9 non-null
    objects all missing the required fields does not abort the run: the run
    issues image calls and finishes without error. -/
theorem claim_C2_counterexample :
    (generateAnimation 9 envNoFields9 false).2 = none ∧
    (generateAnimation 9 envNoFields9 false).1.trace ≠ [] := by
  exact ⟨by decide, by decide⟩

/-- C2 (amended): the run aborts with the invalid-plan error before any
    image-edit call exactly when the parsed planner value fails the actual
    shape check (not an array, length differing from N, or some element not
    a non-null object); presence of the required fields is not checked, and
    with a passing shape check the first image call is always issued. -/
theorem claim_C2_amended (n : Nat) (env : Env) (c : Bool) :
    (¬ validPlanCheck n env.planResult = true →
      (generateAnimation n env c).2 = some .invalidPlan ∧
      (generateAnimation n env c).1.trace = []) ∧
    (validPlanCheck n env.planResult = true →
      Call.firstCall ∈ (generateAnimation n env c).1.trace) := by
  constructor
  · intro h
    rw [generateAnimation_invalid n env c h]
    exact ⟨rfl, by simp [initState]⟩
  · intro h
    obtain ⟨plan, hp, hlen, hall⟩ := validPlanCheck_spec h
    cases hf : env.firstResult with
    | none =>
      rw [generateAnimation_noFirst n env c plan hp hlen hall hf]
      rw [show (preFirst n env, some RunError.noFirstFrame).1 = preFirst n env from rfl,
        preFirst_trace]
      simp
    | some f =>
      cases c with
      | true =>
        rw [generateAnimation_cyc_run n env plan f hp hlen hall hf]
        obtain ⟨tl, htl, _⟩ := bisectLoop_trace_shape env (plan.filterMap id) n
          (entryCyc n env f) [(0, n - 1)]
        split
        · dsimp only
          rw [htl, entryCyc_trace]
          simp
        · dsimp only
          rw [setProgressTo_trace, htl, entryCyc_trace]
          simp
      | false =>
        cases hl : env.lastResult with
        | none =>
          rw [generateAnimation_noLast n env plan f hp hlen hall hf hl]
          dsimp only
          rw [issueCall_trace, entryCommon_trace]
          simp
        | some l =>
          rw [generateAnimation_nc_run n env plan f l hp hlen hall hf hl]
          obtain ⟨tl, htl, _⟩ := bisectLoop_trace_shape env (plan.filterMap id) n
            (entryNC n env f l) [(0, n - 1)]
          split
          · dsimp only
            rw [htl, entryNC_trace]
            simp
          · dsimp only
            rw [setProgressTo_trace, htl, entryNC_trace]
            simp

/-- Witness for C2 (amended) at the short-plan environment. -/
theorem claim_C2_amended_witness :
    (generateAnimation 9 envShortPlan9 false).2 = some .invalidPlan ∧
    (generateAnimation 9 envShortPlan9 false).1.trace = [] :=
  (claim_C2_amended 9 envShortPlan9 false).1 (by decide)

/-- C6: when the planner returns an array whose length differs from N, the
    run aborts at once with the invalid-plan error, no image call is issued,
    and the cost accumulator holds exactly the planning call's token cost
    (the run-start reset value plus that token cost, nothing more), with
    the progress counter still at its reset value. -/
theorem claim_C6_invalid_plan_cost (n : Nat) (env : Env) (c : Bool)
    (plan : List PlanElem) (hp : env.planResult = some plan)
    (hlen : plan.length ≠ n) :
    (generateAnimation n env c).2 = some .invalidPlan ∧
    (generateAnimation n env c).1.trace = [] ∧
    (generateAnimation n env c).1.estimatedCost = planTokenCost env.planUsage ∧
    (generateAnimation n env c).1.progress = 0 := by
  have hcheck : ¬ validPlanCheck n env.planResult = true := by
    unfold validPlanCheck
    rw [hp]
    simp only [Bool.and_eq_true, beq_iff_eq]
    intro hcon
    exact hlen hcon.1
  rw [generateAnimation_invalid n env c hcheck]
  refine ⟨rfl, by simp [initState], ?_, by simp [initState]⟩
  rw [show (planCost env (initState n), some RunError.invalidPlan).1
    = planCost env (initState n) from rfl, planCost_cost]
  simp [initState]

/-- Witness for C6 at the eight-element-plan environment. -/
theorem claim_C6_witness :
    (generateAnimation 9 envShortPlan9 false).2 = some .invalidPlan ∧
    (generateAnimation 9 envShortPlan9 false).1.trace = [] ∧
    (generateAnimation 9 envShortPlan9 false).1.estimatedCost =
      planTokenCost envShortPlan9.planUsage ∧
    (generateAnimation 9 envShortPlan9 false).1.progress = 0 :=
  claim_C6_invalid_plan_cost 9 envShortPlan9 false
    (List.replicate 8 (some fullPose)) rfl (by decide)

/-- C3: a bisection call for a range (start, end) is issued only when both
    boundary slots hold an image (a skipped range issues no call); and in
    the concrete N = 9 run where only the call for range (0, 8) fails, the
    failure propagates so that no further interior call is ever issued and
    slots 1 through 7 all stay blank while the run still completes. -/
theorem claim_C3_failure_propagation :
    (∀ (env : Env) (fr : List (Option Image)) (fp : List Pose) (s e : Nat),
      generateSingleFrame env fr fp s e ≠ .skipped →
        getSlot fr s ≠ none ∧ getSlot fr e ≠ none) ∧
    (generateAnimation 9 envMidFail9 false).1.trace =
      [Call.firstCall, Call.lastCall, Call.midCall 0 8] ∧
    (generateAnimation 9 envMidFail9 false).1.frames =
      [some "F", none, none, none, none, none, none, none, some "L"] ∧
    (generateAnimation 9 envMidFail9 false).2 = none := by
  refine ⟨?_, by decide, by decide, by decide⟩
  intro env fr fp s e h
  have h2 := gsf_not_skipped h
  exact ⟨Option.isSome_iff_ne_none.mp h2.1, Option.isSome_iff_ne_none.mp h2.2⟩

/-- Witness for C3 at a concrete non-skipped call. -/
theorem claim_C3_witness :
    getSlot [some "F", some "L"] 0 ≠ none ∧ getSlot [some "F", some "L"] 1 ≠ none :=
  claim_C3_failure_propagation.1 envAll9 [some "F", some "L"]
    [fullPose, fullPose] 0 1 (by decide)

/-! All-success coverage analysis. -/

theorem isChainFrom_append {l₁ l₂ : List (Nat × Nat)} {a b c : Nat}
    (h₁ : IsChainFrom a l₁ b) (h₂ : IsChainFrom b l₂ c) :
    IsChainFrom a (l₁ ++ l₂) c := by
  induction l₁ generalizing a with
  | nil => rw [show a = b from h₁]; exact h₂
  | cons r rest ih => exact ⟨h₁.1, ih h₁.2⟩

theorem isChainFrom_splitRange (r : Nat × Nat) :
    IsChainFrom r.1 (splitRange r) r.2 := by
  exact ⟨rfl, rfl, rfl⟩

theorem isChainFrom_nextRanges {rs : List (Nat × Nat)} {a b : Nat}
    (h : IsChainFrom a rs b) : IsChainFrom a (nextRanges rs) b := by
  induction rs generalizing a with
  | nil => exact h
  | cons r rest ih =>
    rw [show nextRanges (r :: rest) = splitRange r ++ nextRanges rest from rfl]
    apply isChainFrom_append ?_ (ih h.2)
    rw [← h.1]
    exact isChainFrom_splitRange r

theorem chain_covers :
    ∀ (rs : List (Nat × Nat)) (a b i : Nat), IsChainFrom a rs b →
    (∀ r ∈ rs, r.1 ≤ r.2 ∧ gap r ≤ 1) → a < i → i ≤ b →
    ∃ r ∈ rs, i = r.2 := by
  intro rs
  induction rs with
  | nil =>
    intro a b i hch _ hlt hle
    rw [show a = b from hch] at hlt
    omega
  | cons r rest ih =>
    intro a b i hch hwf hlt hle
    have hr := hwf r (List.mem_cons_self r rest)
    simp only [gap] at hr
    by_cases hi : i ≤ r.2
    · refine ⟨r, List.mem_cons_self r rest, ?_⟩
      have h1 := hch.1
      omega
    · obtain ⟨r2, hmem, he⟩ := ih r.2 b i hch.2
        (fun q hq => hwf q (List.mem_cons_of_mem r hq)) (by omega) hle
      exact ⟨r2, List.mem_cons_of_mem r hmem, he⟩

theorem gsf_ok_of_success {env : Env} {fr : List (Option Image)} {fp : List Pose}
    {s e : Nat} (h1 : getSlot fr s ≠ none) (h2 : getSlot fr e ≠ none)
    (h3 : (fp[s]?).isSome) (h4 : (fp[(s + e) / 2]?).isSome)
    (h5 : (env.midResult s e).isSome) :
    ∃ img, generateSingleFrame env fr fp s e = .ok ((s + e) / 2) img := by
  unfold generateSingleFrame
  have hc : ((getSlot fr s).isNone || (getSlot fr e).isNone
      || (fp[s]?).isNone || (fp[(s + e) / 2]?).isNone) = false := by
    simp only [Bool.or_eq_false_iff, Option.isNone_eq_false_iff]
    exact ⟨⟨⟨Option.isSome_iff_ne_none.mpr h1, Option.isSome_iff_ne_none.mpr h2⟩,
      h3⟩, h4⟩
  rw [if_neg (by rw [hc]; simp)]
  obtain ⟨img, himg⟩ := Option.isSome_iff_exists.mp h5
  rw [himg]
  exact ⟨img, rfl⟩

theorem mem_levelWrites_of_active {env : Env} {fp : List Pose}
    {fr : List (Option Image)} {rs : List (Nat × Nat)} {r : Nat × Nat}
    {i : Nat} {img : Image} (hr : r ∈ activeRanges rs)
    (hok : generateSingleFrame env fr fp r.1 r.2 = .ok i img) :
    (i, img) ∈ levelWrites (levelResults env fp fr rs) := by
  apply List.mem_filterMap.mpr
  refine ⟨(r, generateSingleFrame env fr fp r.1 r.2), ?_, ?_⟩
  · exact mem_levelResults.mpr ⟨hr, rfl⟩
  · rw [hok]

theorem gsf_no_failed {env : Env} {fr : List (Option Image)} {fp : List Pose}
    {s e : Nat} (h : (env.midResult s e).isSome) (i : Nat) :
    generateSingleFrame env fr fp s e ≠ .failed i := by
  unfold generateSingleFrame
  intro hcon
  by_cases hc : ((getSlot fr s).isNone || (getSlot fr e).isNone
      || (fp[s]?).isNone || (fp[(s + e) / 2]?).isNone) = true
  · rw [if_pos hc] at hcon
    exact MidOutcome.noConfusion hcon
  · rw [if_neg hc] at hcon
    obtain ⟨img, himg⟩ := Option.isSome_iff_exists.mp h
    rw [himg] at hcon
    exact MidOutcome.noConfusion hcon

theorem levelCalls_length_eq {lr : List ((Nat × Nat) × MidOutcome)}
    (h : ∀ p ∈ lr, ∀ i, p.2 ≠ MidOutcome.failed i) :
    (levelCalls lr).length = (levelWrites lr).length := by
  induction lr with
  | nil => rfl
  | cons p rest ih =>
    have hrest := ih (fun q hq => h q (List.mem_cons_of_mem p hq))
    cases hp : p.2 with
    | skipped =>
      simp only [levelCalls, levelWrites, List.filterMap_cons, hp]
      exact hrest
    | failed i => exact absurd hp (h p (List.mem_cons_self p rest) i)
    | ok i img =>
      simp only [levelCalls, levelWrites, List.filterMap_cons, hp, List.length_cons]
      simp only [levelCalls, levelWrites] at hrest
      omega

theorem coverInv_runLevel (n : Nat) (env : Env) (fp : List Pose)
    {st : RunState} {rs : List (Nat × Nat)} (inv : LoopInv n st rs)
    (cov : CoverInv n st rs) (hmid : ∀ s e, (env.midResult s e).isSome)
    (hfp : ∀ i, i < n → (fp[i]?).isSome) :
    CoverInv n (runLevel env fp st rs) (nextRanges rs) := by
  constructor
  · exact isChainFrom_nextRanges cov.chain
  · intro c hc
    rw [runLevel_frames]
    obtain ⟨r, hr, hcr⟩ := mem_nextRanges.mp hc
    have hfill := cov.filled r hr
    have hwfr := inv.wf r hr
    have hpreserve : ∀ j, getSlot st.frames j ≠ none →
        getSlot (writeAll st.frames
          (levelWrites (levelResults env fp st.frames rs))) j ≠ none := by
      intro j hj
      exact Option.isSome_iff_ne_none.mp (getSlot_writeAll_isSome _ _ _
        (Option.isSome_iff_ne_none.mpr hj))
    have hmidFilled : getSlot (writeAll st.frames
        (levelWrites (levelResults env fp st.frames rs))) (rmid r) ≠ none := by
      by_cases hg : 1 < gap r
      · have hrAC : r ∈ activeRanges rs := mem_activeRanges.mpr ⟨hr, hg⟩
        have hgap : 1 < r.2 - r.1 := hg
        obtain ⟨img, hok⟩ := gsf_ok_of_success hfill.1 hfill.2
          (hfp r.1 (by omega)) (hfp ((r.1 + r.2) / 2) (by omega)) (hmid r.1 r.2)
        have hmem := mem_levelWrites_of_active hrAC hok
        have := getSlot_writeAll_mem _ st.frames ((r.1 + r.2) / 2, img) hmem
          (by rw [inv.flen]; dsimp only; omega)
        exact this
      · have hterm : rmid r = r.1 := by
          simp only [gap] at hg
          simp only [rmid]
          omega
        rw [hterm]
        exact hpreserve r.1 hfill.1
    rcases mem_splitRange.mp hcr with e | e <;> subst e <;> dsimp only
    · exact ⟨hpreserve r.1 hfill.1, hmidFilled⟩
    · exact ⟨hmidFilled, hpreserve r.2 hfill.2⟩

/-- All-success loop run: both invariants carry to a terminal work list of
    width at most 1, and the loop issues exactly one call per write. -/
theorem bisectLoop_success (n : Nat) (env : Env) (fp : List Pose)
    (hmid : ∀ s e, (env.midResult s e).isSome)
    (hfp : ∀ i, i < n → (fp[i]?).isSome) :
    ∀ (fuel : Nat) (st : RunState) (rs : List (Nat × Nat)),
    LoopInv n st rs → CoverInv n st rs → maxGap rs ≤ fuel →
    ∃ rs2, LoopInv n (bisectLoop env fp fuel st rs) rs2 ∧
      CoverInv n (bisectLoop env fp fuel st rs) rs2 ∧ maxGap rs2 ≤ 1 ∧
      ∃ tl nw, (bisectLoop env fp fuel st rs).trace = st.trace ++ tl ∧
        (bisectLoop env fp fuel st rs).writes = st.writes ++ nw ∧
        tl.length = nw.length := by
  intro fuel
  induction fuel with
  | zero =>
    intro st rs inv cov hg
    exact ⟨rs, by rw [bisectLoop_zero]; exact inv, by rw [bisectLoop_zero]; exact cov,
      by omega, [], [], by simp [bisectLoop_zero], by simp [bisectLoop_zero], rfl⟩
  | succ f ih =>
    intro st rs inv cov hg
    by_cases hc : (rs.any fun r => decide (1 < gap r)) = true
    · have h2 : 2 ≤ maxGap rs := (loopCond_iff rs).mp hc
      have hnext : maxGap (nextRanges rs) ≤ f := by
        have := maxGap_nextRanges_eq h2
        omega
      have inv2 := loopInv_runLevel n env fp inv
      have cov2 := coverInv_runLevel n env fp inv cov hmid hfp
      obtain ⟨rs2, i2, c2, hg2, tl, nw, ht, hw, hlen⟩ :=
        ih (runLevel env fp st rs) (nextRanges rs) inv2 cov2 hnext
      rw [bisectLoop_succ, if_pos hc]
      refine ⟨rs2, i2, c2, hg2,
        levelCalls (levelResults env fp st.frames rs) ++ tl,
        levelWrites (levelResults env fp st.frames rs) ++ nw, ?_, ?_, ?_⟩
      · rw [ht, runLevel_trace, List.append_assoc]
      · rw [hw, runLevel_writes, List.append_assoc]
      · rw [List.length_append, List.length_append, hlen,
          levelCalls_length_eq ?_]
        intro p hp i
        obtain ⟨_, hgsf⟩ := mem_levelResults.mp hp
        rw [hgsf]
        exact gsf_no_failed (hmid p.1.1 p.1.2) i
    · rw [bisectLoop_succ, if_neg hc]
      have h1 : maxGap rs ≤ 1 := by
        by_contra hh
        exact hc ((loopCond_iff rs).mpr (by omega))
      exact ⟨rs, inv, cov, h1, [], [], by simp, by simp, rfl⟩

theorem filterMap_id_length_all {l : List PlanElem}
    (h : l.all Option.isSome = true) : (l.filterMap id).length = l.length := by
  induction l with
  | nil => rfl
  | cons x xs ih =>
    rw [List.all_cons, Bool.and_eq_true] at h
    cases x with
    | none => simp at h
    | some a =>
      simp only [List.filterMap_cons, id, List.length_cons]
      rw [ih h.2]

/-- Full characterization of a non-cyclic run in which every call succeeds:
    it ends without error, issues the two endpoint calls first and then one
    bisection call per interior slot (n - 2 of them), and fills every slot. -/
theorem allsuccess_nc (n : Nat) (env : Env) (plan : List PlanElem) (f l : Image)
    (hn : 2 ≤ n) (hp : env.planResult = some plan) (hlen : plan.length = n)
    (hall : plan.all Option.isSome = true) (hf : env.firstResult = some f)
    (hl : env.lastResult = some l) (hmid : ∀ s e, (env.midResult s e).isSome) :
    (generateAnimation n env false).2 = none ∧
    (∃ mids, (generateAnimation n env false).1.trace =
      Call.firstCall :: Call.lastCall :: mids ∧ mids.length = n - 2 ∧
      ∀ c ∈ mids, ∃ s e, c = Call.midCall s e) ∧
    (∀ i, i < n → getSlot (generateAnimation n env false).1.frames i ≠ none) := by
  have hfp : ∀ i, i < n → ((plan.filterMap id)[i]?).isSome := by
    intro i hi
    have hlen2 : (plan.filterMap id).length = n := by
      rw [filterMap_id_length_all hall, hlen]
    rw [List.getElem?_eq_getElem (by omega)]
    rfl
  have inv := loopInv_entryNC n env f l hn
  have cov : CoverInv n (entryNC n env f l) [(0, n - 1)] := by
    constructor
    · exact ⟨rfl, rfl⟩
    · intro r hr
      simp only [List.mem_singleton] at hr
      subst hr
      rw [entryNC_frames]
      dsimp only
      constructor
      · rw [getSlot_entryPair_zero n f l hn]
        simp
      · rw [getSlot_entryPair_last n f l hn]
        simp
  obtain ⟨rs2, inv2, cov2, hg2, tl, nw, ht, hw, hlentl⟩ :=
    bisectLoop_success n env (plan.filterMap id) hmid hfp n (entryNC n env f l)
      [(0, n - 1)] inv cov (by rw [maxGap_init]; omega)
  have hfill : ∀ i, i < n →
      getSlot (bisectLoop env (plan.filterMap id) n (entryNC n env f l)
        [(0, n - 1)]).frames i ≠ none := by
    intro i hi
    rcases Nat.eq_zero_or_pos i with h0 | hpos
    · subst h0
      cases hrs2 : rs2 with
      | nil =>
        have hch := cov2.chain
        rw [hrs2] at hch
        exact absurd (show (0 : Nat) = n - 1 from hch) (by omega)
      | cons r rest =>
        have hch := cov2.chain
        rw [hrs2] at hch
        have hr1 : r.1 = 0 := hch.1
        have hfr := (cov2.filled r (by rw [hrs2]; exact List.mem_cons_self r rest)).1
        rw [hr1] at hfr
        exact hfr
    · obtain ⟨r, hr, he⟩ := chain_covers rs2 0 (n - 1) i cov2.chain
        (fun r hr => ⟨(inv2.wf r hr).1, by have := le_maxGap hr; omega⟩)
        hpos (by omega)
      rw [he]
      exact (cov2.filled r hr).2
  rw [generateAnimation_nc_run n env plan f l hp hlen hall hf hl]
  have hnotlt : ¬(((bisectLoop env (plan.filterMap id) n (entryNC n env f l)
      [(0, n - 1)]).frames.filterMap id).length < 2) := by
    intro hcon
    have h0 := hfill 0 (by omega)
    have hN := hfill (n - 1) (by omega)
    have := two_filled_le _ 0 (n - 1) (by omega) (by rw [inv2.flen]; omega)
      (Option.isSome_iff_ne_none.mpr h0) (Option.isSome_iff_ne_none.mpr hN)
    omega
  rw [if_neg hnotlt]
  obtain ⟨_, ⟨nw2, hw2eq, hw2int, hw2fr⟩⟩ := bisectLoop_master n env
    (plan.filterMap id) n (entryNC n env f l) [(0, n - 1)] inv
  have hnww : nw = nw2 := List.append_cancel_left (hw.symm.trans hw2eq)
  subst hnww
  have hnodup : (nw.map Prod.fst).Nodup := by
    have h1 := inv2.wNodup
    rw [hw, List.map_append] at h1
    exact h1.of_append_right
  have hsup : ∀ i, i ∈ Finset.Ioo 0 (n - 1) → i ∈ nw.map Prod.fst := by
    intro i hi
    rw [Finset.mem_Ioo] at hi
    by_contra hmem
    have hunch := hw2fr i hmem
    have hfilli := hfill i (by omega)
    rw [hunch, entryNC_frames] at hfilli
    exact hfilli (by rw [getSlot_set, if_neg (by rintro ⟨e, _⟩; omega),
      getSlot_set, if_neg (by rintro ⟨e, _⟩; omega), getSlot_replicate])
  have hcard : nw.length = n - 2 := by
    have htf : (nw.map Prod.fst).toFinset = Finset.Ioo 0 (n - 1) := by
      apply Finset.Subset.antisymm
      · intro i hi
        obtain ⟨w, hwmem, hwi⟩ := List.mem_map.mp (List.mem_toFinset.mp hi)
        have := hw2int w hwmem
        rw [Finset.mem_Ioo]
        omega
      · intro i hi
        exact List.mem_toFinset.mpr (hsup i hi)
    have hc1 := List.toFinset_card_of_nodup hnodup
    rw [htf, Nat.card_Ioo] at hc1
    rw [List.length_map] at hc1
    omega
  obtain ⟨tl2, ht2, htmids⟩ := bisectLoop_trace_shape env (plan.filterMap id) n
    (entryNC n env f l) [(0, n - 1)]
  have htleq : tl = tl2 := List.append_cancel_left (ht.symm.trans ht2)
  refine ⟨rfl, ⟨tl, ?_, ?_, ?_⟩, ?_⟩
  · dsimp only
    rw [setProgressTo_trace, ht, entryNC_trace]
    rfl
  · rw [hlentl, hcard]
  · intro c hcm
    rw [htleq] at hcm
    exact htmids c hcm
  · intro i hi
    dsimp only
    rw [setProgressTo_frames]
    exact hfill i hi

/-- C1 (amended): for a run with N = 9, non-cyclic, where the planning call
    and every image-edit call succeed, the scheduler issues exactly 9 image
    calls in total (one for slot 0, one for slot 8, and 7 interior bisection
    calls), and at the end of the run all 9 frame slots are non-blank. -/
theorem claim_C1_amended (env : Env) (plan : List PlanElem) (f l : Image)
    (hp : env.planResult = some plan) (hlen : plan.length = 9)
    (hall : plan.all Option.isSome = true) (hf : env.firstResult = some f)
    (hl : env.lastResult = some l) (hmid : ∀ s e, (env.midResult s e).isSome) :
    (generateAnimation 9 env false).2 = none ∧
    (generateAnimation 9 env false).1.trace.length = 9 ∧
    (∃ mids, (generateAnimation 9 env false).1.trace =
      Call.firstCall :: Call.lastCall :: mids ∧ mids.length = 7 ∧
      ∀ c ∈ mids, ∃ s e, c = Call.midCall s e) ∧
    (∀ i, i < 9 → getSlot (generateAnimation 9 env false).1.frames i ≠ none) := by
  obtain ⟨h1, ⟨mids, hm1, hm2, hm3⟩, h3⟩ :=
    allsuccess_nc 9 env plan f l (by omega) hp hlen hall hf hl hmid
  refine ⟨h1, ?_, ⟨mids, hm1, hm2, hm3⟩, h3⟩
  rw [hm1]
  simp only [List.length_cons]
  rw [hm2]

/-- Witness for C1 (amended) at the all-success environment. -/
theorem claim_C1_amended_witness :
    (generateAnimation 9 envAll9 false).2 = none ∧
    (generateAnimation 9 envAll9 false).1.trace.length = 9 :=
  ⟨(claim_C1_amended envAll9 fullPlan9 "F" "L" rfl (by decide) (by decide)
      rfl rfl (fun s e => rfl)).1,
   (claim_C1_amended envAll9 fullPlan9 "F" "L" rfl (by decide) (by decide)
      rfl rfl (fun s e => rfl)).2.1⟩

theorem preFirst_writes (n : Nat) (env : Env) : (preFirst n env).writes = [] := by
  simp [preFirst, initState]

theorem preFirst_processed (n : Nat) (env : Env) :
    (preFirst n env).processed = [] := by
  simp [preFirst, initState]

theorem entryCommon_writes (n : Nat) (env : Env) (f : Image) :
    (entryCommon n env f).writes = [(0, f)] := by
  simp [entryCommon, preFirst, initState]

theorem entryCommon_processed (n : Nat) (env : Env) (f : Image) :
    (entryCommon n env f).processed = [] := by
  simp [entryCommon, preFirst, initState]

/-- C4: for N at least 3 with a valid plan, in every non-cyclic run the
    endpoint calls come first: if the first-frame call fails the trace is
    exactly that one call and the run aborts; if the last-frame call fails
    the trace is exactly the two endpoint calls and the run aborts; when
    both endpoints succeed the run ends without error, the trace is the two
    endpoint calls followed only by bisection calls, and slots 0 and N-1
    hold the endpoint images. -/
theorem claim_C4_endpoints_first (n : Nat) (env : Env) (plan : List PlanElem)
    (hn : 3 ≤ n) (hp : env.planResult = some plan) (hlen : plan.length = n)
    (hall : plan.all Option.isSome = true) :
    (env.firstResult = none →
      (generateAnimation n env false).2 = some .noFirstFrame ∧
      (generateAnimation n env false).1.trace = [Call.firstCall]) ∧
    (∀ f, env.firstResult = some f → env.lastResult = none →
      (generateAnimation n env false).2 = some .noLastFrame ∧
      (generateAnimation n env false).1.trace = [Call.firstCall, Call.lastCall]) ∧
    (∀ f l, env.firstResult = some f → env.lastResult = some l →
      (generateAnimation n env false).2 = none ∧
      (∃ mids, (generateAnimation n env false).1.trace =
        Call.firstCall :: Call.lastCall :: mids ∧
        ∀ c ∈ mids, ∃ s e, c = Call.midCall s e) ∧
      getSlot (generateAnimation n env false).1.frames 0 = some f ∧
      getSlot (generateAnimation n env false).1.frames (n - 1) = some l) := by
  refine ⟨?_, ?_, ?_⟩
  · intro hf
    rw [generateAnimation_noFirst n env false plan hp hlen hall hf]
    exact ⟨rfl, preFirst_trace n env⟩
  · intro f hf hl
    rw [generateAnimation_noLast n env plan f hp hlen hall hf hl]
    refine ⟨rfl, ?_⟩
    dsimp only
    rw [issueCall_trace, entryCommon_trace]
    rfl
  · intro f l hf hl
    rw [generateAnimation_nc_run n env plan f l hp hlen hall hf hl]
    obtain ⟨h0, hN, hnotlt, ⟨rs2, inv2⟩, hwr⟩ :=
      nc_loop_facts n env (plan.filterMap id) f l (by omega)
    rw [if_neg hnotlt]
    obtain ⟨tl, ht, htm⟩ := bisectLoop_trace_shape env (plan.filterMap id) n
      (entryNC n env f l) [(0, n - 1)]
    refine ⟨rfl, ⟨tl, ?_, htm⟩, ?_, ?_⟩
    · dsimp only
      rw [setProgressTo_trace, ht, entryNC_trace]
      rfl
    · dsimp only
      rw [setProgressTo_frames]
      exact h0
    · dsimp only
      rw [setProgressTo_frames]
      exact hN

/-- Witness for C4 at the all-success environment. -/
theorem claim_C4_witness :
    (generateAnimation 9 envAll9 false).2 = none ∧
    getSlot (generateAnimation 9 envAll9 false).1.frames 0 = some "F" ∧
    getSlot (generateAnimation 9 envAll9 false).1.frames (9 - 1) = some "L" := by
  have h := (claim_C4_endpoints_first 9 envAll9 fullPlan9 (by omega) rfl
    (by decide) (by decide)).2.2 "F" "L" rfl rfl
  exact ⟨h.1, h.2.2.1, h.2.2.2⟩

/-- C5: in a cyclic run with a valid plan whose first-frame call returns f,
    the run ends without error, slot N-1 holds exactly the same image data
    as slot 0 (both are f), no last-frame call is ever issued, and every
    issued bisection call targets a slot strictly below N-1, so no image
    call is attributed to resolving slot N-1. -/
theorem claim_C5_cyclic_copy (n : Nat) (env : Env) (plan : List PlanElem)
    (f : Image) (hn : 2 ≤ n) (hp : env.planResult = some plan)
    (hlen : plan.length = n) (hall : plan.all Option.isSome = true)
    (hf : env.firstResult = some f) :
    (generateAnimation n env true).2 = none ∧
    getSlot (generateAnimation n env true).1.frames 0 = some f ∧
    getSlot (generateAnimation n env true).1.frames (n - 1) = some f ∧
    Call.lastCall ∉ (generateAnimation n env true).1.trace ∧
    (∀ s e, Call.midCall s e ∈ (generateAnimation n env true).1.trace →
      (s + e) / 2 < n - 1) := by
  rw [generateAnimation_cyc_run n env plan f hp hlen hall hf]
  obtain ⟨h0, hN, hnotlt, ⟨rs2, inv2⟩, hwr⟩ :=
    cyc_loop_facts n env (plan.filterMap id) f hn
  rw [if_neg hnotlt]
  obtain ⟨tl, ht, htm⟩ := bisectLoop_trace_shape env (plan.filterMap id) n
    (entryCyc n env f) [(0, n - 1)]
  refine ⟨rfl, ?_, ?_, ?_, ?_⟩
  · dsimp only
    rw [setProgressTo_frames]
    exact h0
  · dsimp only
    rw [setProgressTo_frames]
    exact hN
  · dsimp only
    rw [setProgressTo_trace, ht, entryCyc_trace]
    intro hmem
    rcases List.mem_append.mp hmem with h | h
    · simp at h
    · obtain ⟨s, e, he⟩ := htm _ h
      exact Call.noConfusion he
  · intro s e hmem
    dsimp only at hmem
    rw [setProgressTo_trace] at hmem
    have := inv2.tMid s e hmem
    omega

/-- Witness for C5 at the all-success environment with the cyclic flag. -/
theorem claim_C5_witness :
    (generateAnimation 9 envAll9 true).2 = none ∧
    getSlot (generateAnimation 9 envAll9 true).1.frames 0 = some "F" ∧
    getSlot (generateAnimation 9 envAll9 true).1.frames (9 - 1) = some "F" ∧
    Call.lastCall ∉ (generateAnimation 9 envAll9 true).1.trace := by
  have h := claim_C5_cyclic_copy 9 envAll9 fullPlan9 "F" (by omega) rfl
    (by decide) (by decide) rfl
  exact ⟨h.1, h.2.1, h.2.2.1, h.2.2.2.1⟩

/-- C7: in every run, every slot write targets a distinct index (no slot
    is ever written twice, so no successful result overwrites a filled
    slot); every processed width-over-1 range has a distinct midpoint over
    the whole bisection; and in every run that ends without error slots 0
    and N-1 are each written by exactly one step. -/
theorem claim_C7_slots_written_once (n : Nat) (env : Env) (c : Bool)
    (hn : 2 ≤ n) :
    ((generateAnimation n env c).1.writes.map Prod.fst).Nodup ∧
    ((generateAnimation n env c).1.processed.map rmid).Nodup ∧
    (∀ p ∈ (generateAnimation n env c).1.processed, 1 < p.2 - p.1) ∧
    ((generateAnimation n env c).2 = none →
      0 ∈ (generateAnimation n env c).1.writes.map Prod.fst ∧
      (n - 1) ∈ (generateAnimation n env c).1.writes.map Prod.fst) := by
  by_cases hvp : validPlanCheck n env.planResult = true
  · obtain ⟨plan, hp, hlen, hall⟩ := validPlanCheck_spec hvp
    cases hf : env.firstResult with
    | none =>
      rw [generateAnimation_noFirst n env c plan hp hlen hall hf]
      dsimp only
      rw [preFirst_writes, preFirst_processed]
      refine ⟨by simp, by simp, by simp, ?_⟩
      intro h
      exact absurd h (by simp)
    | some f =>
      cases c with
      | true =>
        rw [generateAnimation_cyc_run n env plan f hp hlen hall hf]
        obtain ⟨h0, hN, hnotlt, ⟨rs2, inv2⟩, ⟨nw, hw1, hw2⟩⟩ :=
          cyc_loop_facts n env (plan.filterMap id) f hn
        rw [if_neg hnotlt]
        dsimp only
        rw [setProgressTo_writes, setProgressTo_processed]
        refine ⟨inv2.wNodup, inv2.pNodup, fun p hp2 => (inv2.pGap p hp2).1, ?_⟩
        intro _
        rw [hw1]
        exact ⟨by simp, by simp⟩
      | false =>
        cases hl : env.lastResult with
        | none =>
          rw [generateAnimation_noLast n env plan f hp hlen hall hf hl]
          dsimp only
          rw [issueCall_writes, issueCall_processed, entryCommon_writes,
            entryCommon_processed]
          refine ⟨by simp, by simp, by simp, ?_⟩
          intro h
          exact absurd h (by simp)
        | some l =>
          rw [generateAnimation_nc_run n env plan f l hp hlen hall hf hl]
          obtain ⟨h0, hN, hnotlt, ⟨rs2, inv2⟩, ⟨nw, hw1, hw2⟩⟩ :=
            nc_loop_facts n env (plan.filterMap id) f l hn
          rw [if_neg hnotlt]
          dsimp only
          rw [setProgressTo_writes, setProgressTo_processed]
          refine ⟨inv2.wNodup, inv2.pNodup, fun p hp2 => (inv2.pGap p hp2).1, ?_⟩
          intro _
          rw [hw1]
          exact ⟨by simp, by simp⟩
  · rw [generateAnimation_invalid n env c hvp]
    dsimp only
    refine ⟨by simp [initState], by simp [initState], by simp [initState], ?_⟩
    intro h
    exact absurd h (by simp)

/-- Witness for C7 at the all-success environment. -/
theorem claim_C7_witness :
    ((generateAnimation 9 envAll9 false).1.writes.map Prod.fst).Nodup ∧
    (9 - 1) ∈ (generateAnimation 9 envAll9 false).1.writes.map Prod.fst := by
  have h := claim_C7_slots_written_once 9 envAll9 false (by omega)
  exact ⟨h.1, (h.2.2.2 (by decide)).2⟩

/-- C8: the maximum range width strictly decreases at every level with a
    width-over-1 range left, the loop's result is independent of any fuel
    from N upward (the while loop terminates), and a run with a valid plan
    and successful endpoint phase performs exactly ceil(log2(N-1)) levels of
    image-call batches. -/
theorem claim_C8_logarithmic_depth (n : Nat) (env : Env) (c : Bool)
    (plan : List PlanElem) (f : Image) (hn : 3 ≤ n)
    (hp : env.planResult = some plan) (hlen : plan.length = n)
    (hall : plan.all Option.isSome = true) (hf : env.firstResult = some f)
    (hlast : c = true ∨ (c = false ∧ ∃ l, env.lastResult = some l)) :
    (∀ rs : List (Nat × Nat), 2 ≤ maxGap rs →
      maxGap (nextRanges rs) < maxGap rs) ∧
    (∀ (fp : List Pose) (st : RunState) (k : Nat),
      bisectLoop env fp (n + k) st [(0, n - 1)] =
        bisectLoop env fp n st [(0, n - 1)]) ∧
    (generateAnimation n env c).1.levels = Nat.clog 2 (n - 1) := by
  refine ⟨fun rs h => maxGap_nextRanges_lt h, ?_, ?_⟩
  · intro fp st k
    exact bisectLoop_fuel_stable env fp n k st [(0, n - 1)]
      (by rw [maxGap_init]; omega)
  · have hlv : ∀ (fp : List Pose) (st : RunState), st.levels = 0 →
        (bisectLoop env fp n st [(0, n - 1)]).levels = Nat.clog 2 (n - 1) := by
      intro fp st h0
      rw [bisectLoop_levels env fp n st [(0, n - 1)] (by rw [maxGap_init]; omega),
        h0, maxGap_init, Nat.max_eq_right (by omega)]
      omega
    rcases hlast with hcyc | ⟨hcf, l, hl⟩
    · subst hcyc
      rw [generateAnimation_cyc_run n env plan f hp hlen hall hf]
      split
      · dsimp only
        exact hlv _ _ (entryCyc_levels n env f)
      · dsimp only
        rw [setProgressTo_levels]
        exact hlv _ _ (entryCyc_levels n env f)
    · subst hcf
      rw [generateAnimation_nc_run n env plan f l hp hlen hall hf hl]
      split
      · dsimp only
        exact hlv _ _ (entryNC_levels n env f l)
      · dsimp only
        rw [setProgressTo_levels]
        exact hlv _ _ (entryNC_levels n env f l)

/-- Witness for C8 at the all-success environment: 3 levels for N = 9. -/
theorem claim_C8_witness :
    (generateAnimation 9 envAll9 false).1.levels = Nat.clog 2 (9 - 1) :=
  (claim_C8_logarithmic_depth 9 envAll9 false fullPlan9 "F" (by omega) rfl
    (by decide) (by decide) rfl (Or.inr ⟨rfl, "L", rfl⟩)).2.2

/-- C9: within any single run, the recorded sequence of (progress,
    estimatedCost) values after the run-start reset is monotonically
    non-decreasing in both components: every update adds a non-negative
    quantity, and the final absolute progress write never lowers it. -/
theorem claim_C9_monotonic (n : Nat) (env : Env) (c : Bool) (hn : 2 ≤ n) :
    List.Chain' StepLE (generateAnimation n env c).1.hist := by
  by_cases hvp : validPlanCheck n env.planResult = true
  · obtain ⟨plan, hp, hlen, hall⟩ := validPlanCheck_spec hvp
    cases hf : env.firstResult with
    | none =>
      rw [generateAnimation_noFirst n env c plan hp hlen hall hf]
      exact (histOK_preFirst n env).2
    | some f =>
      cases c with
      | true =>
        rw [generateAnimation_cyc_run n env plan f hp hlen hall hf]
        have hloop := histOK_bisectLoop env (plan.filterMap id) n
          (entryCyc n env f) [(0, n - 1)] (histOK_entryCyc n env f)
        split
        · exact hloop.2
        · dsimp only
          obtain ⟨_, _, _, ⟨rs2, inv2⟩, _⟩ :=
            cyc_loop_facts n env (plan.filterMap id) f hn
          have hbound : (bisectLoop env (plan.filterMap id) n (entryCyc n env f)
              [(0, n - 1)]).progress ≤ n + 1 := by
            rw [inv2.prog]
            have := interior_writes_bound n inv2.wNodup
            omega
          exact (histOK_setProgressTo hbound hloop).2
      | false =>
        cases hl : env.lastResult with
        | none =>
          rw [generateAnimation_noLast n env plan f hp hlen hall hf hl]
          exact (histOK_issueCall _ (histOK_entryCommon n env f)).2
        | some l =>
          rw [generateAnimation_nc_run n env plan f l hp hlen hall hf hl]
          have hloop := histOK_bisectLoop env (plan.filterMap id) n
            (entryNC n env f l) [(0, n - 1)] (histOK_entryNC n env f l)
          split
          · exact hloop.2
          · dsimp only
            obtain ⟨_, _, _, ⟨rs2, inv2⟩, _⟩ :=
              nc_loop_facts n env (plan.filterMap id) f l hn
            have hbound : (bisectLoop env (plan.filterMap id) n
                (entryNC n env f l) [(0, n - 1)]).progress ≤ n + 1 := by
              rw [inv2.prog]
              have := interior_writes_bound n inv2.wNodup
              omega
            exact (histOK_setProgressTo hbound hloop).2
  · rw [generateAnimation_invalid n env c hvp]
    exact (histOK_planCost env (histOK_initState n)).2

/-- Witness for C9 at the all-success environment. -/
theorem claim_C9_witness :
    List.Chain' StepLE (generateAnimation 9 envAll9 false).1.hist :=
  claim_C9_monotonic 9 envAll9 false (by omega)
